import Mathlib

/-!
Verification of the link-time driver logic of tools/shared.py: the
archive-aware symbol-resolution linker (Building.link and its nested
helpers consider_object / consider_archive / scan_archive_group), the
symbol-table parser (Building.parse_symbols), the duplicate-archive-entry
warning (warn_if_duplicate_entries), and the meta-DCE graph root marking
(Building.metadce).

Paths and symbol names are strings; Python sets become Finset String.
External tool invocations (llvm-nm, llvm-ar) are modelled by an
environment record giving, for each path, the data the driver reads back
from those tools.
-/

namespace Shared

abbrev Path := String
abbrev Sym := String

/-- Python s.startswith("-"), specialised to the one-character case the
driver uses to recognise command-line flags.  (Stated on the character
list so that concrete instances reduce in the kernel.) -/
def starts_with_dash (f : String) : Bool :=
  f.data.head? == some '-'

/-- Result of running llvm-nm on one file, as parsed by the driver
(class ObjectFileInfo in tools/shared.py). `returncode` is the llvm-nm
exit code; the three sets are the parsed symbol classes. -/
structure ObjectFileInfo where
  returncode : Nat
  defs : Finset Sym
  undefs : Finset Sym
  commons : Finset Sym
deriving DecidableEq

/-- ObjectFileInfo.is_valid_for_nm from tools/shared.py. -/
def ObjectFileInfo.is_valid_for_nm (o : ObjectFileInfo) : Bool :=
  o.returncode == 0

/-- The filesystem/tool facts the link algorithm consults: whether a path
is an archive (Building.is_ar), whether it is LLVM bitcode
(Building.is_bitcode), its llvm-nm symbol table (Building.llvm_nm via the
uninternal nm cache), and the member listing of an archive
(Building.ar_contents, populated by read_link_inputs). -/
structure LinkEnv where
  is_ar : Path → Bool
  is_bitcode : Path → Bool
  nm : Path → ObjectFileInfo
  ar_contents : Path → List Path

/-- The mutable state threaded through one Building.link run:
actual_files, unresolved_symbols, resolved_symbols, added_contents. -/
structure LinkState where
  actual_files : List Path
  unresolved_symbols : Finset Sym
  resolved_symbols : Finset Sym
  added_contents : Finset Path

/-- consider_object from Building.link.  Returns (do_add, new state).
A file failing llvm-nm or not being bitcode is skipped (warning in the
source) and the state is unchanged.  Otherwise the object is added when
force_add is set or its defined/common symbols meet unresolved_symbols;
on addition resolved_symbols is updated first, then unresolved_symbols
gains the object's undefined symbols minus the updated resolved set and
loses the provided symbols, mirroring the statement order in the source. -/
def consider_object (env : LinkEnv) (st : LinkState) (f : Path) (force_add : Bool) :
    Bool × LinkState :=
  let new_symbols := env.nm f
  if new_symbols.is_valid_for_nm = false then (false, st)
  else if env.is_bitcode f = false then (false, st)
  else
    let provided := new_symbols.defs ∪ new_symbols.commons
    if force_add = true ∨ (st.unresolved_symbols ∩ provided).Nonempty then
      let resolved2 := st.resolved_symbols ∪ provided
      (true,
        { st with
          actual_files := st.actual_files ++ [f]
          resolved_symbols := resolved2
          unresolved_symbols :=
            (st.unresolved_symbols ∪ (new_symbols.undefs \ resolved2)) \ provided })
    else (false, st)

/-- The body of the inner for-loop of consider_archive, for one content:
a content not yet in added_contents is offered to consider_object; on
success it is recorded in added_contents and the pass is flagged as
having changed (loop_again / added_any_objects in the source). -/
def archive_step (env : LinkEnv) (force_add_all : Bool)
    (acc : Bool × LinkState) (content : Path) : Bool × LinkState :=
  if content ∈ acc.2.added_contents then acc
  else
    let r := consider_object env acc.2 content force_add_all
    if r.1 = true then
      (true, { r.2 with added_contents := insert content r.2.added_contents })
    else (acc.1, r.2)

/-- One full pass of the inner for-loop of consider_archive over the
member list. -/
def archive_pass (env : LinkEnv) (force_add_all : Bool) (contents : List Path)
    (st : LinkState) : Bool × LinkState :=
  contents.foldl (archive_step env force_add_all) (false, st)

/-- The while-loop of consider_archive: repeat archive_pass until a pass
adds nothing.  fuel bounds the number of passes; consider_archive supplies
enough fuel for the fixed point to be reached (see the termination
theorems).  Returns (added_any_objects, final state). -/
def consider_archive_loop (env : LinkEnv) (force_add_all : Bool) (contents : List Path) :
    Nat → LinkState → Bool × LinkState
  | 0, st => (false, st)
  | Nat.succ fuel, st =>
    let p := archive_pass env force_add_all contents st
    if p.1 = true then (true, (consider_archive_loop env force_add_all contents fuel p.2).2)
    else (false, p.2)

/-- consider_archive from Building.link: fixed-point scan of one archive's
member list. -/
def consider_archive (env : LinkEnv) (force_add_all : Bool) (f : Path)
    (st : LinkState) : Bool × LinkState :=
  consider_archive_loop env force_add_all (env.ar_contents f)
    ((env.ar_contents f).length + 1) st

/-- The body of the for-loop inside scan_archive_group, for one archive:
the archive is re-scanned and the pass is flagged when it added any
object. -/
def group_step (env : LinkEnv) (force_add_all : Bool)
    (acc : Bool × LinkState) (archive : Path) : Bool × LinkState :=
  let r := consider_archive env force_add_all archive acc.2
  if r.1 = true then (true, r.2) else (acc.1, r.2)

/-- One full pass of the for-loop inside scan_archive_group over the
whole group. -/
def group_pass (env : LinkEnv) (force_add_all : Bool) (group : List Path)
    (st : LinkState) : Bool × LinkState :=
  group.foldl (group_step env force_add_all) (false, st)

/-- The while-loop of scan_archive_group, fuelled like
consider_archive_loop. -/
def scan_group_loop (env : LinkEnv) (force_add_all : Bool) (group : List Path) :
    Nat → LinkState → LinkState
  | 0, st => st
  | Nat.succ fuel, st =>
    let p := group_pass env force_add_all group st
    if p.1 = true then scan_group_loop env force_add_all group fuel p.2
    else p.2

/-- scan_archive_group from Building.link: rescan a group of archives
until one pass over the whole group adds nothing. -/
def scan_archive_group (env : LinkEnv) (force_add_all : Bool) (group : List Path)
    (st : LinkState) : LinkState :=
  scan_group_loop env force_add_all group
    ((group.map (fun a => (env.ar_contents a).length)).sum + 1) st

/-- The body of the filtering closure of unique_ordered, threading the
seen set. -/
def uo_step (acc : List Path × Finset Path) (v : Path) : List Path × Finset Path :=
  if v ∈ acc.2 then acc else (acc.1 ++ [v], insert v acc.2)

/-- unique_ordered from tools/shared.py: unique values, keeping the first
occurrence of each, preserving order. -/
def unique_ordered (values : List Path) : List Path :=
  (values.foldl uo_step ([], ∅)).1

/-- One step of the main for-loop over files in Building.link.  The
accumulator carries the link state and current_archive_group (none when
outside a group).  A `none` result models an assertion failure in the
source (nested --start-group, --end-group without --start-group, or an
unsupported link flag). -/
def process_file (env : LinkEnv) (force_add_all has_ar : Bool)
    (acc : LinkState × Option (List Path)) (f : Path) :
    Option (LinkState × Option (List Path)) :=
  if starts_with_dash f = true then
    if f = "--start-group" ∨ f = "-(" then
      match acc.2 with
      | some _ => none
      | none => some (acc.1, some [])
    else if f = "--end-group" ∨ f = "-)" then
      match acc.2 with
      | none => none
      | some group => some (scan_archive_group env force_add_all group acc.1, none)
    else none
  else if env.is_ar f = false then
    if env.is_bitcode f = true then
      if has_ar = true then
        some ((consider_object env acc.1 f true).2, acc.2)
      else some ({ acc.1 with actual_files := acc.1.actual_files ++ [f] }, acc.2)
    else some acc
  else
    let st2 := (consider_archive env force_add_all f acc.1).2
    match acc.2 with
    | some group => some (st2, some (group ++ [f]))
    | none => some (st2, none)

/-- The main for-loop of Building.link over its input files. -/
def process_files (env : LinkEnv) (force_add_all has_ar : Bool) :
    List Path → (LinkState × Option (List Path)) →
    Option (LinkState × Option (List Path))
  | [], acc => some acc
  | f :: fs, acc =>
    match process_file env force_add_all has_ar acc f with
    | none => none
    | some acc2 => process_files env force_add_all has_ar fs acc2

/-- The file-selection portion of Building.link: seeds unresolved_symbols
from the root export set, computes has_ar and force_add_all as the source
does, walks the inputs, closes a dangling non-empty --start-group, and
returns the unique_ordered list of chosen files.  `none` models an
assertion failure. -/
def link (env : LinkEnv) (files : List Path) (roots : Finset Sym)
    (force_archive_contents : Bool) : Option (List Path) :=
  let has_ar := files.any (fun f => !starts_with_dash f && env.is_ar f)
  let force_add_all := (files.length == 1) || force_archive_contents
  let st0 : LinkState := ⟨[], roots, ∅, ∅⟩
  match process_files env force_add_all has_ar files (st0, none) with
  | none => none
  | some (st, none) => some (unique_ordered st.actual_files)
  | some (st, some group) =>
    -- the source tests the group for Python truthiness: an empty dangling
    -- group is not rescanned
    if group = [] then some (unique_ordered st.actual_files)
    else some (unique_ordered (scan_archive_group env force_add_all group st).actual_files)

/-! ### Symbol-table parsing (Building.parse_symbols) -/

/-- Python str.split(sep) for a one-character separator, on character
lists: splits at every occurrence of sep, keeping empty chunks, so that
splitting the empty string yields one empty chunk. -/
def py_split_char (sep : Char) : List Char → List (List Char)
  | [] => [[]]
  | c :: rest =>
    let r := py_split_char sep rest
    if c = sep then [] :: r
    else (c :: r.headI) :: r.tail

/-- Python str.split(sep) on strings. -/
def py_split (sep : Char) (s : String) : List String :=
  (py_split_char sep s.data).map (fun l => String.mk l)

/-- Python str.upper() (ASCII behaviour, which is all the nm status
letters need). -/
def str_upper (s : String) : String :=
  String.mk (s.data.map Char.toUpper)

/-- The defs/undefs/commons accumulator lists built by
Building.parse_symbols before they are turned into sets. -/
structure NmAcc where
  defs : List Sym
  undefs : List Sym
  commons : List Sym
deriving DecidableEq

/-- The whitespace tokenisation of one nm output line:
[seg for seg in line.split(' ') if len(seg)]. -/
def nm_line_parts (line : String) : List String :=
  (py_split ' ' line).filter (fun seg => seg.length ≠ 0)

/-- The classification tail of the parse_symbols loop body: a two-column
parts list is classified by status letter (U undefined, C common,
otherwise defined when the external-only mode sees an upper-case status,
or when the internal mode sees one of W t T d D); any other arity is
ignored. -/
def classify_two (include_internal : Bool) (acc : NmAcc) (parts : List String) : NmAcc :=
  match parts with
  | [status, symbol] =>
    if status = "U" then { acc with undefs := acc.undefs ++ [symbol] }
    else if status = "C" then { acc with commons := acc.commons ++ [symbol] }
    else if (include_internal = false ∧ status = str_upper status) ∨
        (include_internal = true ∧
          (status = "W" ∨ status = "t" ∨ status = "T" ∨ status = "d" ∨ status = "D")) then
      { acc with defs := acc.defs ++ [symbol] }
    else acc
  | _ => acc

/-- The body of the for-loop of Building.parse_symbols for one line:
skip empty lines and filename lines (containing a colon); drop a single
leading all-zero or dash-placeholder offset column from three-column
lines; then classify what remains. -/
def parse_symbols_line (include_internal : Bool) (acc : NmAcc) (line : String) : NmAcc :=
  if line.length = 0 then acc
  else if line.data.contains ':' = true then acc
  else
    let parts0 := nm_line_parts line
    if parts0.length = 3 ∧ (parts0.headI = "00000000" ∨ parts0.headI = "--------") then
      classify_two include_internal acc parts0.tail
    else classify_two include_internal acc parts0

/-- Building.parse_symbols: fold the line handler over the lines of the
nm output and package the three sets (returncode 0 on the success path). -/
def parse_symbols (output : String) (include_internal : Bool) : ObjectFileInfo :=
  let acc := (py_split '\n' output).foldl (parse_symbols_line include_internal) ⟨[], [], []⟩
  ⟨0, acc.defs.toFinset, acc.undefs.toFinset, acc.commons.toFinset⟩

/-! ### Archive extraction warnings (warn_if_duplicate_entries,
extract_archive_contents) -/

/-- The per-name warning loop of warn_if_duplicate_entries: one line per
distinct entry that also occurs later in the list, guarded by the warned
set so each name is printed once. -/
def duplicate_entry_lines : List String → Finset String → List String
  | [], _ => []
  | curr :: rest, warned =>
    if curr ∉ warned ∧ curr ∈ rest then
      curr :: duplicate_entry_lines rest (insert curr warned)
    else duplicate_entry_lines rest warned

/-- warn_if_duplicate_entries: returns (number of aggregated warning
messages, per-name warning lines).  The aggregated message is emitted
once, exactly when the listing has fewer distinct entries than entries. -/
def warn_if_duplicate_entries (archive_contents : List String) : Nat × List String :=
  if archive_contents.length ≠ archive_contents.toFinset.card then
    (1, duplicate_entry_lines archive_contents ∅)
  else (0, [])

/-- Modelled from the spec: the external archive tool's "extract all"
invocation (llvm-ar xo) is not part of src/; per §6 it writes each member
into the current working directory at its listed name (the driver
pre-creates directories for listed names with embedded paths).  The
destination of a member listed under name c, relative to the temporary
extraction directory, is therefore c itself. -/
def extraction_dest (c : String) : String := c

/-- The on-disk destinations of all members of one archive, in listing
order, as produced by extract_archive_contents. -/
def extract_archive_dests (contents : List String) : List String :=
  contents.map extraction_dest

/-! ### Meta-DCE graph root marking (Building.metadce) -/

/-- One node of the DCE graph read back from emitDCEGraph: an optional
export name, an optional import pair (module, name), and the root flag. -/
structure DCEGraphItem where
  exportName : Option String
  importPair : Option (String × String)
  root : Bool
deriving DecidableEq

/-- The first for-loop of Building.metadce: for an item carrying an
export, prepend the wasm-backend underscore to the export name before
looking it up among the user-requested exports, and mark the item as a
root when it is found there or EXPORT_ALL is set. -/
def metadce_mark_export_root (wasm_backend export_all : Bool)
    (user_requested_exports : List String) (item : DCEGraphItem) : DCEGraphItem :=
  match item.exportName with
  | none => item
  | some e =>
    let e2 := if wasm_backend = true then "_" ++ e else e
    if e2 ∈ user_requested_exports ∨ export_all = true then { item with root := true }
    else item

/-- The second for-loop of Building.metadce (wasm backend only): strip a
leading underscore from the imported name of an import item.  (The source
indexes name[0], which would fault on an empty name; names here are
nonempty identifiers and an empty name is modelled as unchanged.) -/
def metadce_fix_import (wasm_backend : Bool) (item : DCEGraphItem) : DCEGraphItem :=
  if wasm_backend = true then
    match item.importPair with
    | none => item
    | some mn =>
      if mn.2.data.head? = some '_' then
        { item with importPair := some (mn.1, String.mk (mn.2.data.drop 1)) }
      else item
  else item

/-- The graph-adjustment phase of Building.metadce: export-root marking
over every item, then import-name fixing over every item. -/
def metadce_build_graph (wasm_backend export_all : Bool)
    (user_requested_exports : List String) (graph : List DCEGraphItem) : List DCEGraphItem :=
  (graph.map (metadce_mark_export_root wasm_backend export_all user_requested_exports)).map
    (metadce_fix_import wasm_backend)

/-- The set of all member paths of the archives of a group. -/
def group_members (env : LinkEnv) (group : List Path) : Finset Path :=
  group.foldr (fun a acc => (env.ar_contents a).toFinset ∪ acc) ∅

/-! ### Concrete environments used to instantiate the theorems -/

/-- Two cross-referencing singleton archives: A.a holds a.o (defines fa,
needs fb), B.a holds b.o (defines fb, needs fa). -/
def env_group : LinkEnv where
  is_ar p := p == "A.a" || p == "B.a"
  is_bitcode p := p == "a.o" || p == "b.o"
  nm p :=
    if p = "a.o" then ⟨0, {"fa"}, {"fb"}, ∅⟩
    else if p = "b.o" then ⟨0, {"fb"}, {"fa"}, ∅⟩
    else ⟨1, ∅, ∅, ∅⟩
  ar_contents p :=
    if p = "A.a" then ["a.o"] else if p = "B.a" then ["b.o"] else []

/-- A single archive A.a whose sole member m.o defines nothing that any
root needs. -/
def env_single_archive : LinkEnv where
  is_ar p := p == "A.a"
  is_bitcode p := p == "m.o"
  nm p := if p = "m.o" then ⟨0, {"m"}, ∅, ∅⟩ else ⟨1, ∅, ∅, ∅⟩
  ar_contents p := if p = "A.a" then ["m.o"] else []

/-- A world with no archives in which every file is bitcode. -/
def env_objects_only : LinkEnv where
  is_ar _ := false
  is_bitcode p := p != "t.txt"
  nm _ := ⟨0, ∅, ∅, ∅⟩
  ar_contents _ := []

/-- Archive A.a defines f in a.o; archive B.a's member b.o references f
(and defines nothing). -/
def env_ordered_ref_only : LinkEnv where
  is_ar p := p == "A.a" || p == "B.a"
  is_bitcode p := p == "a.o" || p == "b.o"
  nm p :=
    if p = "a.o" then ⟨0, {"f"}, ∅, ∅⟩
    else if p = "b.o" then ⟨0, ∅, {"f"}, ∅⟩
    else ⟨1, ∅, ∅, ∅⟩
  ar_contents p :=
    if p = "B.a" then ["b.o"] else if p = "A.a" then ["a.o"] else []

/-- Like env_ordered_ref_only, but b.o additionally defines the root g. -/
def env_ordered_def_root : LinkEnv where
  is_ar p := p == "A.a" || p == "B.a"
  is_bitcode p := p == "a.o" || p == "b.o"
  nm p :=
    if p = "a.o" then ⟨0, {"f"}, ∅, ∅⟩
    else if p = "b.o" then ⟨0, {"g"}, {"f"}, ∅⟩
    else ⟨1, ∅, ∅, ∅⟩
  ar_contents p :=
    if p = "B.a" then ["b.o"] else if p = "A.a" then ["a.o"] else []

/-- A direct bitcode input bad.o on which llvm-nm fails (returncode 1),
next to an empty archive A.a. -/
def env_bad_object : LinkEnv where
  is_ar p := p == "A.a"
  is_bitcode p := p == "bad.o"
  nm p := if p = "bad.o" then ⟨1, ∅, ∅, ∅⟩ else ⟨0, ∅, ∅, ∅⟩
  ar_contents _ := []

/-- Every path recorded in added_contents has been appended to
actual_files. -/
def AddedListed (st : LinkState) : Prop :=
  ∀ x ∈ st.added_contents, x ∈ st.actual_files

/-! ### Basic lemmas about consider_object -/

theorem consider_object_invalid (env : LinkEnv) (st : LinkState) (f : Path) (b : Bool)
    (h : (env.nm f).is_valid_for_nm = false) :
    consider_object env st f b = (false, st) := by
  simp [consider_object, h]

theorem consider_object_not_bitcode (env : LinkEnv) (st : LinkState) (f : Path) (b : Bool)
    (hv : (env.nm f).is_valid_for_nm = true) (h : env.is_bitcode f = false) :
    consider_object env st f b = (false, st) := by
  simp [consider_object, hv, h]

theorem consider_object_add (env : LinkEnv) (st : LinkState) (f : Path) (b : Bool)
    (hv : (env.nm f).is_valid_for_nm = true) (hb : env.is_bitcode f = true)
    (hc : b = true ∨ (st.unresolved_symbols ∩ ((env.nm f).defs ∪ (env.nm f).commons)).Nonempty) :
    consider_object env st f b =
      (true,
        { st with
          actual_files := st.actual_files ++ [f]
          resolved_symbols := st.resolved_symbols ∪ ((env.nm f).defs ∪ (env.nm f).commons)
          unresolved_symbols :=
            (st.unresolved_symbols ∪
                ((env.nm f).undefs \ (st.resolved_symbols ∪ ((env.nm f).defs ∪ (env.nm f).commons)))) \
              ((env.nm f).defs ∪ (env.nm f).commons) }) := by
  simp [consider_object, hv, hb, hc]

theorem consider_object_skip (env : LinkEnv) (st : LinkState) (f : Path) (b : Bool)
    (hv : (env.nm f).is_valid_for_nm = true) (hb : env.is_bitcode f = true)
    (hc : ¬ (b = true ∨
      (st.unresolved_symbols ∩ ((env.nm f).defs ∪ (env.nm f).commons)).Nonempty)) :
    consider_object env st f b = (false, st) := by
  simp only [consider_object, hv, hb]
  simp [hc]

theorem consider_object_of_fst_false (env : LinkEnv) (st : LinkState) (f : Path) (b : Bool)
    (h : (consider_object env st f b).1 = false) :
    consider_object env st f b = (false, st) := by
  by_cases hv : (env.nm f).is_valid_for_nm = true
  · by_cases hb : env.is_bitcode f = true
    · by_cases hc : b = true ∨
        (st.unresolved_symbols ∩ ((env.nm f).defs ∪ (env.nm f).commons)).Nonempty
      · rw [consider_object_add env st f b hv hb hc] at h
        simp at h
      · exact consider_object_skip env st f b hv hb hc
    · exact consider_object_not_bitcode env st f b hv (by simpa using hb)
  · exact consider_object_invalid env st f b (by simpa using hv)

theorem consider_object_added_contents (env : LinkEnv) (st : LinkState) (f : Path) (b : Bool) :
    (consider_object env st f b).2.added_contents = st.added_contents := by
  by_cases hv : (env.nm f).is_valid_for_nm = true
  · by_cases hb : env.is_bitcode f = true
    · by_cases hc : b = true ∨
        (st.unresolved_symbols ∩ ((env.nm f).defs ∪ (env.nm f).commons)).Nonempty
      · rw [consider_object_add env st f b hv hb hc]
      · rw [consider_object_skip env st f b hv hb hc]
    · rw [consider_object_not_bitcode env st f b hv (by simpa using hb)]
  · rw [consider_object_invalid env st f b (by simpa using hv)]

theorem consider_object_actual_mono (env : LinkEnv) (st : LinkState) (f : Path) (b : Bool) :
    st.actual_files ⊆ (consider_object env st f b).2.actual_files := by
  by_cases hv : (env.nm f).is_valid_for_nm = true
  · by_cases hb : env.is_bitcode f = true
    · by_cases hc : b = true ∨
        (st.unresolved_symbols ∩ ((env.nm f).defs ∪ (env.nm f).commons)).Nonempty
      · rw [consider_object_add env st f b hv hb hc]
        exact List.subset_append_left _ _
      · rw [consider_object_skip env st f b hv hb hc]
        exact fun x hx => hx
    · rw [consider_object_not_bitcode env st f b hv (by simpa using hb)]
      exact fun x hx => hx
  · rw [consider_object_invalid env st f b (by simpa using hv)]
    exact fun x hx => hx

/-! ### Lemmas about one archive pass -/

theorem archive_step_added_mono (env : LinkEnv) (faa : Bool) (acc : Bool × LinkState)
    (c : Path) : acc.2.added_contents ⊆ (archive_step env faa acc c).2.added_contents := by
  unfold archive_step
  by_cases h1 : c ∈ acc.2.added_contents
  · simp [h1]
  · simp only [h1, if_false]
    by_cases h2 : (consider_object env acc.2 c faa).1 = true
    · simp only [h2, if_true]
      intro x hx
      simp only [Finset.mem_insert, consider_object_added_contents]
      exact Or.inr hx
    · rw [consider_object_of_fst_false env acc.2 c faa (by simpa using h2)]
      simp

theorem archive_step_actual_mono (env : LinkEnv) (faa : Bool) (acc : Bool × LinkState)
    (c : Path) : acc.2.actual_files ⊆ (archive_step env faa acc c).2.actual_files := by
  unfold archive_step
  by_cases h1 : c ∈ acc.2.added_contents
  · simp [h1]
  · simp only [h1, if_false]
    by_cases h2 : (consider_object env acc.2 c faa).1 = true
    · simp only [h2, if_true]
      exact consider_object_actual_mono env acc.2 c faa
    · rw [consider_object_of_fst_false env acc.2 c faa (by simpa using h2)]
      simp

theorem archive_step_added_bound (env : LinkEnv) (faa : Bool) (acc : Bool × LinkState)
    (c : Path) :
    (archive_step env faa acc c).2.added_contents ⊆ insert c acc.2.added_contents := by
  unfold archive_step
  by_cases h1 : c ∈ acc.2.added_contents
  · simp only [h1, if_true]
    exact Finset.subset_insert c acc.2.added_contents
  · simp only [h1, if_false]
    by_cases h2 : (consider_object env acc.2 c faa).1 = true
    · simp only [h2, if_true]
      rw [consider_object_added_contents]
    · rw [consider_object_of_fst_false env acc.2 c faa (by simpa using h2)]
      simp only
      exact Finset.subset_insert c acc.2.added_contents

theorem archive_step_flag_mono (env : LinkEnv) (faa : Bool) (acc : Bool × LinkState)
    (c : Path) (h : acc.1 = true) : (archive_step env faa acc c).1 = true := by
  unfold archive_step
  by_cases h1 : c ∈ acc.2.added_contents
  · simpa [h1]
  · simp only [h1, if_false]
    by_cases h2 : (consider_object env acc.2 c faa).1 = true
    · simp [h2]
    · rw [consider_object_of_fst_false env acc.2 c faa (by simpa using h2)]
      simpa

theorem archive_step_of_flag_false (env : LinkEnv) (faa : Bool) (acc : Bool × LinkState)
    (c : Path) (h : (archive_step env faa acc c).1 = false) :
    archive_step env faa acc c = acc := by
  unfold archive_step at *
  by_cases h1 : c ∈ acc.2.added_contents
  · simp [h1]
  · simp only [h1, if_false] at h ⊢
    by_cases h2 : (consider_object env acc.2 c faa).1 = true
    · simp [h2] at h
    · rw [consider_object_of_fst_false env acc.2 c faa (by simpa using h2)] at h ⊢
      simp

theorem archive_step_new_of_flag_change (env : LinkEnv) (faa : Bool) (acc : Bool × LinkState)
    (c : Path) (h0 : acc.1 = false) (h : (archive_step env faa acc c).1 = true) :
    c ∉ acc.2.added_contents ∧ c ∈ (archive_step env faa acc c).2.added_contents := by
  unfold archive_step at *
  by_cases h1 : c ∈ acc.2.added_contents
  · rw [if_pos h1] at h
    rw [h0] at h
    exact absurd h (by simp)
  · refine ⟨h1, ?_⟩
    simp only [h1, if_false] at h ⊢
    by_cases h2 : (consider_object env acc.2 c faa).1 = true
    · simp [h2]
    · rw [consider_object_of_fst_false env acc.2 c faa (by simpa using h2)] at h
      rw [h0] at h
      exact absurd h (by simp)

theorem archive_foldl_added_mono (env : LinkEnv) (faa : Bool) (l : List Path) :
    ∀ acc : Bool × LinkState,
      acc.2.added_contents ⊆ (l.foldl (archive_step env faa) acc).2.added_contents := by
  induction l with
  | nil => intro acc; exact fun x hx => hx
  | cons c l ih =>
    intro acc
    exact (archive_step_added_mono env faa acc c).trans (ih (archive_step env faa acc c))

theorem archive_foldl_actual_mono (env : LinkEnv) (faa : Bool) (l : List Path) :
    ∀ acc : Bool × LinkState,
      acc.2.actual_files ⊆ (l.foldl (archive_step env faa) acc).2.actual_files := by
  induction l with
  | nil => intro acc; exact fun x hx => hx
  | cons c l ih =>
    intro acc
    exact (archive_step_actual_mono env faa acc c).trans (ih (archive_step env faa acc c))

theorem archive_foldl_added_bound (env : LinkEnv) (faa : Bool) (l : List Path) :
    ∀ acc : Bool × LinkState,
      (l.foldl (archive_step env faa) acc).2.added_contents ⊆
        acc.2.added_contents ∪ l.toFinset := by
  induction l with
  | nil => intro acc; simp
  | cons c l ih =>
    intro acc
    refine (ih (archive_step env faa acc c)).trans ?_
    intro x hx
    rcases Finset.mem_union.mp hx with hx | hx
    · rcases Finset.mem_insert.mp (archive_step_added_bound env faa acc c hx) with hx | hx
      · subst hx; simp
      · exact Finset.mem_union.mpr (Or.inl hx)
    · simp only [List.toFinset_cons, Finset.mem_union, Finset.mem_insert]
      exact Or.inr (Or.inr hx)

theorem archive_foldl_flag_mono (env : LinkEnv) (faa : Bool) (l : List Path) :
    ∀ acc : Bool × LinkState, acc.1 = true → (l.foldl (archive_step env faa) acc).1 = true := by
  induction l with
  | nil => intro acc h; exact h
  | cons c l ih =>
    intro acc h
    exact ih (archive_step env faa acc c) (archive_step_flag_mono env faa acc c h)

theorem archive_foldl_of_flag_false (env : LinkEnv) (faa : Bool) (l : List Path) :
    ∀ acc : Bool × LinkState,
      (l.foldl (archive_step env faa) acc).1 = false → l.foldl (archive_step env faa) acc = acc := by
  induction l with
  | nil => intro acc _; rfl
  | cons c l ih =>
    intro acc h
    simp only [List.foldl_cons] at h ⊢
    have hstep : (archive_step env faa acc c).1 = false := by
      by_contra hne
      have := archive_foldl_flag_mono env faa l (archive_step env faa acc c)
        (by revert hne; cases (archive_step env faa acc c).1 <;> simp)
      rw [this] at h
      cases h
    rw [archive_step_of_flag_false env faa acc c hstep] at h ⊢
    exact ih acc h

theorem archive_foldl_new_of_flag_change (env : LinkEnv) (faa : Bool) (l : List Path) :
    ∀ acc : Bool × LinkState, acc.1 = false →
      (l.foldl (archive_step env faa) acc).1 = true →
      ∃ c ∈ l, c ∉ acc.2.added_contents ∧
        c ∈ (l.foldl (archive_step env faa) acc).2.added_contents := by
  induction l with
  | nil => intro acc h0 h; rw [List.foldl_nil, h0] at h; cases h
  | cons c l ih =>
    intro acc h0 h
    simp only [List.foldl_cons] at h ⊢
    by_cases hstep : (archive_step env faa acc c).1 = true
    · obtain ⟨hnot, hin⟩ := archive_step_new_of_flag_change env faa acc c h0 hstep
      exact ⟨c, List.mem_cons_self c l, hnot,
        archive_foldl_added_mono env faa l (archive_step env faa acc c) hin⟩
    · have heq := archive_step_of_flag_false env faa acc c (by simpa using hstep)
      rw [heq] at h ⊢
      obtain ⟨d, hd, hnot, hin⟩ := ih acc h0 h
      exact ⟨d, List.mem_cons_of_mem c hd, hnot, hin⟩

/-! ### Lemmas about archive_pass and the consider_archive loop -/

theorem archive_pass_added_mono (env : LinkEnv) (faa : Bool) (l : List Path) (st : LinkState) :
    st.added_contents ⊆ (archive_pass env faa l st).2.added_contents :=
  archive_foldl_added_mono env faa l (false, st)

theorem archive_pass_actual_mono (env : LinkEnv) (faa : Bool) (l : List Path) (st : LinkState) :
    st.actual_files ⊆ (archive_pass env faa l st).2.actual_files :=
  archive_foldl_actual_mono env faa l (false, st)

theorem archive_pass_added_bound (env : LinkEnv) (faa : Bool) (l : List Path) (st : LinkState) :
    (archive_pass env faa l st).2.added_contents ⊆ st.added_contents ∪ l.toFinset :=
  archive_foldl_added_bound env faa l (false, st)

theorem archive_pass_of_flag_false (env : LinkEnv) (faa : Bool) (l : List Path) (st : LinkState)
    (h : (archive_pass env faa l st).1 = false) : archive_pass env faa l st = (false, st) :=
  archive_foldl_of_flag_false env faa l (false, st) h

theorem archive_pass_new_of_flag_true (env : LinkEnv) (faa : Bool) (l : List Path) (st : LinkState)
    (h : (archive_pass env faa l st).1 = true) :
    ∃ c ∈ l, c ∉ st.added_contents ∧ c ∈ (archive_pass env faa l st).2.added_contents :=
  archive_foldl_new_of_flag_change env faa l (false, st) rfl h

theorem archive_pass_card_lt (env : LinkEnv) (faa : Bool) (l : List Path) (st : LinkState)
    (h : (archive_pass env faa l st).1 = true) :
    (l.toFinset \ (archive_pass env faa l st).2.added_contents).card <
      (l.toFinset \ st.added_contents).card := by
  obtain ⟨c, hcl, hcnot, hcin⟩ := archive_pass_new_of_flag_true env faa l st h
  apply Finset.card_lt_card
  constructor
  · exact Finset.sdiff_subset_sdiff (fun x hx => hx) (archive_pass_added_mono env faa l st)
  · intro hsub
    have hc : c ∈ l.toFinset \ st.added_contents :=
      Finset.mem_sdiff.mpr ⟨List.mem_toFinset.mpr hcl, hcnot⟩
    have := Finset.mem_sdiff.mp (hsub hc)
    exact this.2 hcin

theorem consider_archive_loop_added_mono (env : LinkEnv) (faa : Bool) (l : List Path) :
    ∀ (fuel : Nat) (st : LinkState),
      st.added_contents ⊆ (consider_archive_loop env faa l fuel st).2.added_contents := by
  intro fuel
  induction fuel with
  | zero => intro st; exact fun x hx => hx
  | succ fuel ih =>
    intro st
    unfold consider_archive_loop
    by_cases hp : (archive_pass env faa l st).1 = true
    · simp only [hp, if_true]
      exact (archive_pass_added_mono env faa l st).trans (ih (archive_pass env faa l st).2)
    · simp only [hp, if_false]
      exact archive_pass_added_mono env faa l st

theorem consider_archive_loop_actual_mono (env : LinkEnv) (faa : Bool) (l : List Path) :
    ∀ (fuel : Nat) (st : LinkState),
      st.actual_files ⊆ (consider_archive_loop env faa l fuel st).2.actual_files := by
  intro fuel
  induction fuel with
  | zero => intro st; exact fun x hx => hx
  | succ fuel ih =>
    intro st
    unfold consider_archive_loop
    by_cases hp : (archive_pass env faa l st).1 = true
    · simp only [hp, if_true]
      exact (archive_pass_actual_mono env faa l st).trans (ih (archive_pass env faa l st).2)
    · simp only [hp, if_false]
      exact archive_pass_actual_mono env faa l st

theorem consider_archive_loop_added_bound (env : LinkEnv) (faa : Bool) (l : List Path) :
    ∀ (fuel : Nat) (st : LinkState),
      (consider_archive_loop env faa l fuel st).2.added_contents ⊆
        st.added_contents ∪ l.toFinset := by
  intro fuel
  induction fuel with
  | zero => intro st; simp [consider_archive_loop]
  | succ fuel ih =>
    intro st
    unfold consider_archive_loop
    by_cases hp : (archive_pass env faa l st).1 = true
    · simp only [hp, if_true]
      refine (ih (archive_pass env faa l st).2).trans ?_
      intro x hx
      rcases Finset.mem_union.mp hx with hx | hx
      · exact archive_pass_added_bound env faa l st hx
      · exact Finset.mem_union.mpr (Or.inr hx)
    · simp only [hp, if_false]
      exact archive_pass_added_bound env faa l st

theorem consider_archive_loop_of_flag_false (env : LinkEnv) (faa : Bool) (l : List Path)
    (fuel : Nat) (st : LinkState) (h : (consider_archive_loop env faa l fuel st).1 = false) :
    (consider_archive_loop env faa l fuel st).2 = st := by
  cases fuel with
  | zero => rfl
  | succ fuel =>
    unfold consider_archive_loop at h ⊢
    by_cases hp : (archive_pass env faa l st).1 = true
    · simp [hp] at h
    · simp only [hp, if_false] at h ⊢
      exact congrArg Prod.snd (archive_pass_of_flag_false env faa l st (by simpa using hp))

theorem consider_archive_loop_new_of_flag_true (env : LinkEnv) (faa : Bool) (l : List Path)
    (fuel : Nat) (st : LinkState) (h : (consider_archive_loop env faa l fuel st).1 = true) :
    ∃ c ∈ l, c ∉ st.added_contents ∧
      c ∈ (consider_archive_loop env faa l fuel st).2.added_contents := by
  cases fuel with
  | zero => cases h
  | succ fuel =>
    unfold consider_archive_loop at h ⊢
    by_cases hp : (archive_pass env faa l st).1 = true
    · simp only [hp, if_true] at h ⊢
      obtain ⟨c, hcl, hcnot, hcin⟩ := archive_pass_new_of_flag_true env faa l st hp
      exact ⟨c, hcl, hcnot,
        consider_archive_loop_added_mono env faa l fuel (archive_pass env faa l st).2 hcin⟩
    · simp [hp] at h

theorem consider_archive_loop_fix (env : LinkEnv) (faa : Bool) (l : List Path) :
    ∀ (fuel : Nat) (st : LinkState),
      (l.toFinset \ st.added_contents).card < fuel →
      archive_pass env faa l (consider_archive_loop env faa l fuel st).2 =
        (false, (consider_archive_loop env faa l fuel st).2) := by
  intro fuel
  induction fuel with
  | zero => intro st h; cases h
  | succ fuel ih =>
    intro st h
    unfold consider_archive_loop
    by_cases hp : (archive_pass env faa l st).1 = true
    · simp only [hp, if_true]
      apply ih
      calc (l.toFinset \ (archive_pass env faa l st).2.added_contents).card
          < (l.toFinset \ st.added_contents).card := archive_pass_card_lt env faa l st hp
        _ ≤ fuel := Nat.lt_succ_iff.mp h
    · simp only [hp, if_false]
      have := archive_pass_of_flag_false env faa l st (by simpa using hp)
      rw [congrArg Prod.snd this]
      exact this

/-! ### Lemmas about consider_archive -/

theorem consider_archive_added_mono (env : LinkEnv) (faa : Bool) (a : Path) (st : LinkState) :
    st.added_contents ⊆ (consider_archive env faa a st).2.added_contents :=
  consider_archive_loop_added_mono env faa (env.ar_contents a)
    ((env.ar_contents a).length + 1) st

theorem consider_archive_actual_mono (env : LinkEnv) (faa : Bool) (a : Path) (st : LinkState) :
    st.actual_files ⊆ (consider_archive env faa a st).2.actual_files :=
  consider_archive_loop_actual_mono env faa (env.ar_contents a)
    ((env.ar_contents a).length + 1) st

theorem consider_archive_added_bound (env : LinkEnv) (faa : Bool) (a : Path) (st : LinkState) :
    (consider_archive env faa a st).2.added_contents ⊆
      st.added_contents ∪ (env.ar_contents a).toFinset :=
  consider_archive_loop_added_bound env faa (env.ar_contents a)
    ((env.ar_contents a).length + 1) st

theorem consider_archive_of_flag_false (env : LinkEnv) (faa : Bool) (a : Path) (st : LinkState)
    (h : (consider_archive env faa a st).1 = false) : (consider_archive env faa a st).2 = st :=
  consider_archive_loop_of_flag_false env faa (env.ar_contents a)
    ((env.ar_contents a).length + 1) st h

theorem consider_archive_new_of_flag_true (env : LinkEnv) (faa : Bool) (a : Path)
    (st : LinkState) (h : (consider_archive env faa a st).1 = true) :
    ∃ c ∈ env.ar_contents a, c ∉ st.added_contents ∧
      c ∈ (consider_archive env faa a st).2.added_contents :=
  consider_archive_loop_new_of_flag_true env faa (env.ar_contents a)
    ((env.ar_contents a).length + 1) st h

theorem consider_archive_fix (env : LinkEnv) (faa : Bool) (a : Path) (st : LinkState) :
    archive_pass env faa (env.ar_contents a) (consider_archive env faa a st).2 =
      (false, (consider_archive env faa a st).2) := by
  apply consider_archive_loop_fix
  calc ((env.ar_contents a).toFinset \ st.added_contents).card
      ≤ (env.ar_contents a).toFinset.card := Finset.card_le_card Finset.sdiff_subset
    _ ≤ (env.ar_contents a).length := (env.ar_contents a).toFinset_card_le
    _ < (env.ar_contents a).length + 1 := Nat.lt_succ_self _

/-! ### Lemmas about group passes and scan_archive_group -/

theorem mem_group_members (env : LinkEnv) {group : List Path} {a c : Path}
    (ha : a ∈ group) (hc : c ∈ env.ar_contents a) : c ∈ group_members env group := by
  induction group with
  | nil => cases ha
  | cons b group ih =>
    rcases List.mem_cons.mp ha with h | h
    · subst h
      exact Finset.mem_union.mpr (Or.inl (List.mem_toFinset.mpr hc))
    · exact Finset.mem_union.mpr (Or.inr (ih h))

theorem group_members_card_le (env : LinkEnv) (group : List Path) :
    (group_members env group).card ≤
      (group.map (fun a => (env.ar_contents a).length)).sum := by
  induction group with
  | nil => simp [group_members]
  | cons b group ih =>
    calc (group_members env (b :: group)).card
        ≤ (env.ar_contents b).toFinset.card + (group_members env group).card :=
          Finset.card_union_le _ _
      _ ≤ (env.ar_contents b).length +
            (group.map (fun a => (env.ar_contents a).length)).sum :=
          Nat.add_le_add ((env.ar_contents b).toFinset_card_le) ih
      _ = ((b :: group).map (fun a => (env.ar_contents a).length)).sum := by simp

theorem group_step_added_mono (env : LinkEnv) (faa : Bool) (acc : Bool × LinkState)
    (a : Path) : acc.2.added_contents ⊆ (group_step env faa acc a).2.added_contents := by
  unfold group_step
  by_cases h : (consider_archive env faa a acc.2).1 = true
  · simp only [h, if_true]
    exact consider_archive_added_mono env faa a acc.2
  · simp only [h, if_false]
    exact consider_archive_added_mono env faa a acc.2

theorem group_step_actual_mono (env : LinkEnv) (faa : Bool) (acc : Bool × LinkState)
    (a : Path) : acc.2.actual_files ⊆ (group_step env faa acc a).2.actual_files := by
  unfold group_step
  by_cases h : (consider_archive env faa a acc.2).1 = true
  · simp only [h, if_true]
    exact consider_archive_actual_mono env faa a acc.2
  · simp only [h, if_false]
    exact consider_archive_actual_mono env faa a acc.2

theorem group_step_flag_mono (env : LinkEnv) (faa : Bool) (acc : Bool × LinkState)
    (a : Path) (h : acc.1 = true) : (group_step env faa acc a).1 = true := by
  unfold group_step
  by_cases h1 : (consider_archive env faa a acc.2).1 = true
  · simp [h1]
  · simpa [h1]

theorem group_step_of_flag_false (env : LinkEnv) (faa : Bool) (acc : Bool × LinkState)
    (a : Path) (h : (group_step env faa acc a).1 = false) : group_step env faa acc a = acc := by
  unfold group_step at h ⊢
  by_cases h1 : (consider_archive env faa a acc.2).1 = true
  · simp [h1] at h
  · simp only [h1, if_false] at h ⊢
    rw [consider_archive_of_flag_false env faa a acc.2 (by simpa using h1)]
    simp_all
    exact Prod.ext h.symm rfl

theorem group_step_new_of_flag_change (env : LinkEnv) (faa : Bool) (acc : Bool × LinkState)
    (a : Path) (h0 : acc.1 = false) (h : (group_step env faa acc a).1 = true) :
    ∃ c ∈ env.ar_contents a, c ∉ acc.2.added_contents ∧
      c ∈ (group_step env faa acc a).2.added_contents := by
  unfold group_step at h ⊢
  by_cases h1 : (consider_archive env faa a acc.2).1 = true
  · simp only [h1, if_true]
    exact consider_archive_new_of_flag_true env faa a acc.2 h1
  · simp only [h1, if_false] at h
    rw [h0] at h
    cases h

theorem group_foldl_added_mono (env : LinkEnv) (faa : Bool) (group : List Path) :
    ∀ acc : Bool × LinkState,
      acc.2.added_contents ⊆ (group.foldl (group_step env faa) acc).2.added_contents := by
  induction group with
  | nil => intro acc; exact fun x hx => hx
  | cons a group ih =>
    intro acc
    exact (group_step_added_mono env faa acc a).trans (ih (group_step env faa acc a))

theorem group_foldl_actual_mono (env : LinkEnv) (faa : Bool) (group : List Path) :
    ∀ acc : Bool × LinkState,
      acc.2.actual_files ⊆ (group.foldl (group_step env faa) acc).2.actual_files := by
  induction group with
  | nil => intro acc; exact fun x hx => hx
  | cons a group ih =>
    intro acc
    exact (group_step_actual_mono env faa acc a).trans (ih (group_step env faa acc a))

theorem group_foldl_flag_mono (env : LinkEnv) (faa : Bool) (group : List Path) :
    ∀ acc : Bool × LinkState, acc.1 = true →
      (group.foldl (group_step env faa) acc).1 = true := by
  induction group with
  | nil => intro acc h; exact h
  | cons a group ih =>
    intro acc h
    exact ih (group_step env faa acc a) (group_step_flag_mono env faa acc a h)

theorem group_foldl_of_flag_false (env : LinkEnv) (faa : Bool) (group : List Path) :
    ∀ acc : Bool × LinkState,
      (group.foldl (group_step env faa) acc).1 = false →
      group.foldl (group_step env faa) acc = acc := by
  induction group with
  | nil => intro acc _; rfl
  | cons a group ih =>
    intro acc h
    simp only [List.foldl_cons] at h ⊢
    have hstep : (group_step env faa acc a).1 = false := by
      by_contra hne
      have := group_foldl_flag_mono env faa group (group_step env faa acc a)
        (by revert hne; cases (group_step env faa acc a).1 <;> simp)
      rw [this] at h
      cases h
    rw [group_step_of_flag_false env faa acc a hstep] at h ⊢
    exact ih acc h

theorem group_foldl_new_of_flag_change (env : LinkEnv) (faa : Bool) (group : List Path) :
    ∀ acc : Bool × LinkState, acc.1 = false →
      (group.foldl (group_step env faa) acc).1 = true →
      ∃ c ∈ group_members env group, c ∉ acc.2.added_contents ∧
        c ∈ (group.foldl (group_step env faa) acc).2.added_contents := by
  induction group with
  | nil => intro acc h0 h; rw [List.foldl_nil, h0] at h; cases h
  | cons a group ih =>
    intro acc h0 h
    simp only [List.foldl_cons] at h ⊢
    by_cases hstep : (group_step env faa acc a).1 = true
    · obtain ⟨c, hca, hnot, hin⟩ := group_step_new_of_flag_change env faa acc a h0 hstep
      exact ⟨c, mem_group_members env (List.mem_cons_self a group) hca, hnot,
        group_foldl_added_mono env faa group (group_step env faa acc a) hin⟩
    · have heq := group_step_of_flag_false env faa acc a (by simpa using hstep)
      rw [heq] at h ⊢
      obtain ⟨d, hd, hnot, hin⟩ := ih acc h0 h
      refine ⟨d, ?_, hnot, hin⟩
      exact Finset.mem_union.mpr (Or.inr hd)

theorem group_pass_added_mono (env : LinkEnv) (faa : Bool) (group : List Path)
    (st : LinkState) : st.added_contents ⊆ (group_pass env faa group st).2.added_contents :=
  group_foldl_added_mono env faa group (false, st)

theorem group_pass_actual_mono (env : LinkEnv) (faa : Bool) (group : List Path)
    (st : LinkState) : st.actual_files ⊆ (group_pass env faa group st).2.actual_files :=
  group_foldl_actual_mono env faa group (false, st)

theorem group_pass_of_flag_false (env : LinkEnv) (faa : Bool) (group : List Path)
    (st : LinkState) (h : (group_pass env faa group st).1 = false) :
    group_pass env faa group st = (false, st) :=
  group_foldl_of_flag_false env faa group (false, st) h

theorem group_pass_card_lt (env : LinkEnv) (faa : Bool) (group : List Path) (st : LinkState)
    (h : (group_pass env faa group st).1 = true) :
    (group_members env group \ (group_pass env faa group st).2.added_contents).card <
      (group_members env group \ st.added_contents).card := by
  obtain ⟨c, hcg, hcnot, hcin⟩ :=
    group_foldl_new_of_flag_change env faa group (false, st) rfl h
  apply Finset.card_lt_card
  constructor
  · exact Finset.sdiff_subset_sdiff (fun x hx => hx) (group_pass_added_mono env faa group st)
  · intro hsub
    have hc : c ∈ group_members env group \ st.added_contents :=
      Finset.mem_sdiff.mpr ⟨hcg, hcnot⟩
    exact (Finset.mem_sdiff.mp (hsub hc)).2 hcin

theorem scan_group_loop_actual_mono (env : LinkEnv) (faa : Bool) (group : List Path) :
    ∀ (fuel : Nat) (st : LinkState),
      st.actual_files ⊆ (scan_group_loop env faa group fuel st).actual_files := by
  intro fuel
  induction fuel with
  | zero => intro st; exact fun x hx => hx
  | succ fuel ih =>
    intro st
    unfold scan_group_loop
    by_cases hp : (group_pass env faa group st).1 = true
    · simp only [hp, if_true]
      exact (group_pass_actual_mono env faa group st).trans (ih (group_pass env faa group st).2)
    · simp only [hp, if_false]
      exact group_pass_actual_mono env faa group st

theorem scan_group_loop_added_mono (env : LinkEnv) (faa : Bool) (group : List Path) :
    ∀ (fuel : Nat) (st : LinkState),
      st.added_contents ⊆ (scan_group_loop env faa group fuel st).added_contents := by
  intro fuel
  induction fuel with
  | zero => intro st; exact fun x hx => hx
  | succ fuel ih =>
    intro st
    unfold scan_group_loop
    by_cases hp : (group_pass env faa group st).1 = true
    · simp only [hp, if_true]
      exact (group_pass_added_mono env faa group st).trans (ih (group_pass env faa group st).2)
    · simp only [hp, if_false]
      exact group_pass_added_mono env faa group st

theorem scan_group_loop_fix (env : LinkEnv) (faa : Bool) (group : List Path) :
    ∀ (fuel : Nat) (st : LinkState),
      (group_members env group \ st.added_contents).card < fuel →
      group_pass env faa group (scan_group_loop env faa group fuel st) =
        (false, scan_group_loop env faa group fuel st) := by
  intro fuel
  induction fuel with
  | zero => intro st h; cases h
  | succ fuel ih =>
    intro st h
    unfold scan_group_loop
    by_cases hp : (group_pass env faa group st).1 = true
    · simp only [hp, if_true]
      apply ih
      calc (group_members env group \ (group_pass env faa group st).2.added_contents).card
          < (group_members env group \ st.added_contents).card :=
            group_pass_card_lt env faa group st hp
        _ ≤ fuel := Nat.lt_succ_iff.mp h
    · simp only [hp, if_false]
      have := group_pass_of_flag_false env faa group st (by simpa using hp)
      rw [congrArg Prod.snd this]
      exact this

theorem scan_archive_group_fix (env : LinkEnv) (faa : Bool) (group : List Path)
    (st : LinkState) :
    group_pass env faa group (scan_archive_group env faa group st) =
      (false, scan_archive_group env faa group st) := by
  apply scan_group_loop_fix
  calc (group_members env group \ st.added_contents).card
      ≤ (group_members env group).card := Finset.card_le_card Finset.sdiff_subset
    _ ≤ (group.map (fun a => (env.ar_contents a).length)).sum := group_members_card_le env group
    _ < (group.map (fun a => (env.ar_contents a).length)).sum + 1 := Nat.lt_succ_self _

theorem scan_archive_group_actual_mono (env : LinkEnv) (faa : Bool) (group : List Path)
    (st : LinkState) :
    st.actual_files ⊆ (scan_archive_group env faa group st).actual_files :=
  scan_group_loop_actual_mono env faa group _ st

theorem scan_archive_group_added_mono (env : LinkEnv) (faa : Bool) (group : List Path)
    (st : LinkState) :
    st.added_contents ⊆ (scan_archive_group env faa group st).added_contents :=
  scan_group_loop_added_mono env faa group _ st

/-! ### Lemmas about unique_ordered -/

theorem uo_foldl_mem (l : List Path) :
    ∀ (acc : List Path × Finset Path) (x : Path),
      x ∈ (l.foldl uo_step acc).1 ↔ x ∈ acc.1 ∨ (x ∈ l ∧ x ∉ acc.2) := by
  induction l with
  | nil => intro acc x; simp
  | cons v l ih =>
    intro acc x
    simp only [List.foldl_cons]
    rw [ih]
    unfold uo_step
    by_cases hv : v ∈ acc.2
    · rw [if_pos hv]
      by_cases hxv : x = v
      · subst hxv; simp [hv]
      · simp [hxv]
    · rw [if_neg hv]
      by_cases hxv : x = v
      · subst hxv; simp [hv]
      · simp [hxv]

theorem mem_unique_ordered (l : List Path) (x : Path) :
    x ∈ unique_ordered l ↔ x ∈ l := by
  unfold unique_ordered
  rw [uo_foldl_mem]
  simp

theorem uo_foldl_nodup (l : List Path) :
    ∀ acc : List Path × Finset Path, l.Nodup → (∀ x ∈ l, x ∉ acc.2) →
      (l.foldl uo_step acc).1 = acc.1 ++ l := by
  induction l with
  | nil => intro acc _ _; simp
  | cons v l ih =>
    intro acc hnd hnotin
    simp only [List.foldl_cons]
    have hv : v ∉ acc.2 := hnotin v (List.mem_cons_self v l)
    have hstep : uo_step acc v = (acc.1 ++ [v], insert v acc.2) := by
      unfold uo_step; rw [if_neg hv]
    rw [hstep, ih (acc.1 ++ [v], insert v acc.2) (List.Nodup.of_cons hnd)]
    · simp
    · intro x hx
      simp only [Finset.mem_insert]
      push_neg
      refine ⟨?_, hnotin x (List.mem_cons_of_mem v hx)⟩
      intro hxy
      subst hxy
      exact (List.nodup_cons.mp hnd).1 hx

theorem unique_ordered_of_nodup (l : List Path) (h : l.Nodup) : unique_ordered l = l := by
  unfold unique_ordered
  rw [uo_foldl_nodup l ([], ∅) h (by simp)]
  simp

/-! ### Singleton-archive computation lemmas -/

theorem archive_pass_singleton_mem (env : LinkEnv) (faa : Bool) (c : Path) (st : LinkState)
    (h : c ∈ st.added_contents) : archive_pass env faa [c] st = (false, st) := by
  unfold archive_pass archive_step
  simp [h]

theorem consider_archive_of_pass_false (env : LinkEnv) (faa : Bool) (a : Path) (st : LinkState)
    (h : archive_pass env faa (env.ar_contents a) st = (false, st)) :
    consider_archive env faa a st = (false, st) := by
  unfold consider_archive consider_archive_loop
  rw [h]
  simp

theorem consider_archive_singleton_mem (env : LinkEnv) (faa : Bool) (a c : Path)
    (st : LinkState) (hc : env.ar_contents a = [c]) (h : c ∈ st.added_contents) :
    consider_archive env faa a st = (false, st) := by
  apply consider_archive_of_pass_false
  rw [hc]
  exact archive_pass_singleton_mem env faa c st h

theorem consider_archive_singleton_skip (env : LinkEnv) (faa : Bool) (a c : Path)
    (st : LinkState) (hc : env.ar_contents a = [c]) (hnot : c ∉ st.added_contents)
    (hskip : (consider_object env st c faa).1 = false) :
    consider_archive env faa a st = (false, st) := by
  apply consider_archive_of_pass_false
  rw [hc]
  unfold archive_pass archive_step
  simp only [List.foldl_cons, List.foldl_nil]
  rw [if_neg hnot, if_neg (by simp [hskip])]
  rw [congrArg Prod.snd (consider_object_of_fst_false env st c faa hskip)]

theorem consider_archive_singleton_add (env : LinkEnv) (faa : Bool) (a c : Path)
    (st : LinkState) (hc : env.ar_contents a = [c]) (hnot : c ∉ st.added_contents)
    (hadd : (consider_object env st c faa).1 = true) :
    consider_archive env faa a st =
      (true,
        { (consider_object env st c faa).2 with
          added_contents := insert c st.added_contents }) := by
  unfold consider_archive
  rw [hc]
  show consider_archive_loop env faa [c] 2 st = _
  have hpass : archive_pass env faa [c] st =
      (true, { (consider_object env st c faa).2 with
               added_contents := insert c st.added_contents }) := by
    unfold archive_pass archive_step
    simp only [List.foldl_cons, List.foldl_nil]
    rw [if_neg hnot, if_pos hadd, consider_object_added_contents]
  unfold consider_archive_loop
  rw [hpass]
  simp only [if_true]
  unfold consider_archive_loop
  rw [archive_pass_singleton_mem env faa c _ (Finset.mem_insert_self c st.added_contents)]
  simp

/-! ### Group computation lemmas -/

theorem scan_archive_group_of_pass_false (env : LinkEnv) (faa : Bool) (group : List Path)
    (st : LinkState) (h : group_pass env faa group st = (false, st)) :
    scan_archive_group env faa group st = st := by
  unfold scan_archive_group scan_group_loop
  rw [h]
  simp

/-! ### Whole-archive force lemmas -/

theorem archive_foldl_force_all (env : LinkEnv) (l : List Path) :
    ∀ (acc : Bool × LinkState) (m : Path), m ∈ l →
      (env.nm m).is_valid_for_nm = true → env.is_bitcode m = true →
      m ∈ (l.foldl (archive_step env true) acc).2.added_contents := by
  induction l with
  | nil => intro acc m hm; cases hm
  | cons c l ih =>
    intro acc m hm hv hb
    simp only [List.foldl_cons]
    rcases List.mem_cons.mp hm with hm | hm
    · subst hm
      apply archive_foldl_added_mono env true l (archive_step env true acc m)
      unfold archive_step
      by_cases h1 : m ∈ acc.2.added_contents
      · simp [h1]
      · rw [if_neg h1]
        have hadd : (consider_object env acc.2 m true).1 = true := by
          rw [consider_object_add env acc.2 m true hv hb (Or.inl rfl)]
        rw [if_pos hadd]
        exact Finset.mem_insert_self m _
    · exact ih (archive_step env true acc c) m hm hv hb

theorem archive_pass_force_all (env : LinkEnv) (l : List Path) (st : LinkState) (m : Path)
    (hm : m ∈ l) (hv : (env.nm m).is_valid_for_nm = true) (hb : env.is_bitcode m = true) :
    m ∈ (archive_pass env true l st).2.added_contents :=
  archive_foldl_force_all env l (false, st) m hm hv hb

theorem consider_archive_loop_force_all (env : LinkEnv) (l : List Path) (fuel : Nat)
    (st : LinkState) (hfuel : 0 < fuel) (m : Path) (hm : m ∈ l)
    (hv : (env.nm m).is_valid_for_nm = true) (hb : env.is_bitcode m = true) :
    m ∈ (consider_archive_loop env true l fuel st).2.added_contents := by
  cases fuel with
  | zero => cases hfuel
  | succ fuel =>
    unfold consider_archive_loop
    by_cases hp : (archive_pass env true l st).1 = true
    · simp only [hp, if_true]
      exact consider_archive_loop_added_mono env true l fuel (archive_pass env true l st).2
        (archive_pass_force_all env l st m hm hv hb)
    · simp only [hp, if_false]
      exact archive_pass_force_all env l st m hm hv hb

theorem consider_archive_force_all (env : LinkEnv) (a m : Path) (st : LinkState)
    (hm : m ∈ env.ar_contents a) (hv : (env.nm m).is_valid_for_nm = true)
    (hb : env.is_bitcode m = true) :
    m ∈ (consider_archive env true a st).2.added_contents :=
  consider_archive_loop_force_all env (env.ar_contents a) ((env.ar_contents a).length + 1)
    st (Nat.succ_pos _) m hm hv hb

/-! ### The added-members-are-listed invariant -/

theorem archive_step_added_listed (env : LinkEnv) (faa : Bool) (acc : Bool × LinkState)
    (c : Path) (h : AddedListed acc.2) : AddedListed (archive_step env faa acc c).2 := by
  unfold archive_step
  by_cases h1 : c ∈ acc.2.added_contents
  · simpa [h1]
  · rw [if_neg h1]
    by_cases h2 : (consider_object env acc.2 c faa).1 = true
    · rw [if_pos h2]
      intro x hx
      simp only [consider_object_added_contents, Finset.mem_insert] at hx
      by_cases hv : (env.nm c).is_valid_for_nm = true
      · by_cases hb : env.is_bitcode c = true
        · by_cases hcond : faa = true ∨
            (acc.2.unresolved_symbols ∩ ((env.nm c).defs ∪ (env.nm c).commons)).Nonempty
          · rw [consider_object_add env acc.2 c faa hv hb hcond]
            simp only [List.mem_append, List.mem_singleton]
            rcases hx with hx | hx
            · exact Or.inr hx
            · exact Or.inl (h x hx)
          · rw [consider_object_skip env acc.2 c faa hv hb hcond] at h2
            cases h2
        · rw [consider_object_not_bitcode env acc.2 c faa hv (by simpa using hb)] at h2
          cases h2
      · rw [consider_object_invalid env acc.2 c faa (by simpa using hv)] at h2
        cases h2
    · rw [if_neg h2]
      rw [congrArg Prod.snd (consider_object_of_fst_false env acc.2 c faa (by simpa using h2))]
      exact h

theorem archive_foldl_added_listed (env : LinkEnv) (faa : Bool) (l : List Path) :
    ∀ acc : Bool × LinkState, AddedListed acc.2 →
      AddedListed (l.foldl (archive_step env faa) acc).2 := by
  induction l with
  | nil => intro acc h; exact h
  | cons c l ih =>
    intro acc h
    exact ih (archive_step env faa acc c) (archive_step_added_listed env faa acc c h)

theorem consider_archive_loop_added_listed (env : LinkEnv) (faa : Bool) (l : List Path) :
    ∀ (fuel : Nat) (st : LinkState), AddedListed st →
      AddedListed (consider_archive_loop env faa l fuel st).2 := by
  intro fuel
  induction fuel with
  | zero => intro st h; exact h
  | succ fuel ih =>
    intro st h
    unfold consider_archive_loop
    by_cases hp : (archive_pass env faa l st).1 = true
    · simp only [hp, if_true]
      exact ih (archive_pass env faa l st).2 (archive_foldl_added_listed env faa l (false, st) h)
    · simp only [hp, if_false]
      exact archive_foldl_added_listed env faa l (false, st) h

theorem consider_archive_added_listed (env : LinkEnv) (faa : Bool) (a : Path)
    (st : LinkState) (h : AddedListed st) : AddedListed (consider_archive env faa a st).2 :=
  consider_archive_loop_added_listed env faa (env.ar_contents a) _ st h

/-! ### The no-archive fast path of Building.link -/

theorem process_files_no_ar (env : LinkEnv) (faa : Bool) (files : List Path)
    (h1 : ∀ f ∈ files, starts_with_dash f = false)
    (h2 : ∀ f ∈ files, env.is_ar f = false) :
    ∀ (st : LinkState) (g : Option (List Path)),
      process_files env faa false files (st, g) =
        some ({ st with actual_files :=
          st.actual_files ++ files.filter (fun f => env.is_bitcode f) }, g) := by
  induction files with
  | nil =>
    intro st g
    simp [process_files]
  | cons f fs ih =>
    intro st g
    have hf1 : starts_with_dash f = false := h1 f (List.mem_cons_self f fs)
    have hf2 : env.is_ar f = false := h2 f (List.mem_cons_self f fs)
    have ih2 := ih (fun x hx => h1 x (List.mem_cons_of_mem f hx))
      (fun x hx => h2 x (List.mem_cons_of_mem f hx))
    unfold process_files process_file
    simp only [hf1, hf2, Bool.false_eq_true, if_false, if_true, if_pos rfl]
    by_cases hbc : env.is_bitcode f = true
    · simp only [hbc, if_true, Bool.false_eq_true, if_false]
      rw [ih2]
      simp only [List.filter_cons, hbc, if_true]
      congr 2
      simp
    · have hbc2 : env.is_bitcode f = false := by simpa using hbc
      simp only [hbc2, Bool.false_eq_true, if_false]
      rw [ih2]
      simp [List.filter_cons, hbc2]

/-! ### Lemmas about duplicate archive entries -/

theorem toFinset_card_eq_length_iff_nodup (l : List String) :
    l.toFinset.card = l.length ↔ l.Nodup := by
  constructor
  · intro h
    rw [List.card_toFinset] at h
    have hsub : l.dedup.Sublist l := List.dedup_sublist l
    have : l.dedup = l := hsub.eq_of_length h
    rw [← this]
    exact List.nodup_dedup l
  · intro h
    rw [List.card_toFinset, List.dedup_eq_self.mpr h]

theorem mem_duplicate_entry_lines (l : List String) :
    ∀ (warned : Finset String) (x : String),
      x ∈ duplicate_entry_lines l warned ↔ x ∉ warned ∧ 2 ≤ l.count x := by
  induction l with
  | nil => intro warned x; simp [duplicate_entry_lines]
  | cons curr rest ih =>
    intro warned x
    unfold duplicate_entry_lines
    by_cases hcond : curr ∉ warned ∧ curr ∈ rest
    · rw [if_pos hcond]
      by_cases hx : x = curr
      · subst hx
        have h1 : 0 < rest.count x := List.count_pos_iff.mpr hcond.2
        simp only [List.mem_cons, true_or, true_iff]
        refine ⟨hcond.1, ?_⟩
        rw [List.count_cons_self]
        omega
      · simp only [List.mem_cons, hx, false_or]
        rw [ih, List.count_cons_of_ne hx]
        simp [Finset.mem_insert, hx]
    · rw [if_neg hcond, ih]
      by_cases hx : x = curr
      · subst hx
        rw [List.count_cons_self]
        rcases not_and_or.mp hcond with h | h
        · rw [not_not] at h
          simp [h]
        · rw [List.count_eq_zero.mpr h]
          simp
      · rw [List.count_cons_of_ne hx]

theorem duplicate_entry_lines_nodup (l : List String) :
    ∀ warned : Finset String, (duplicate_entry_lines l warned).Nodup := by
  induction l with
  | nil => intro warned; simp [duplicate_entry_lines]
  | cons curr rest ih =>
    intro warned
    unfold duplicate_entry_lines
    by_cases hcond : curr ∉ warned ∧ curr ∈ rest
    · rw [if_pos hcond]
      rw [List.nodup_cons]
      refine ⟨?_, ih (insert curr warned)⟩
      rw [mem_duplicate_entry_lines]
      simp
    · rw [if_neg hcond]
      exact ih warned

theorem extract_archive_dests_eq (contents : List String) :
    extract_archive_dests contents = contents := by
  unfold extract_archive_dests
  induction contents with
  | nil => rfl
  | cons c cs ih =>
    simp only [List.map_cons, ih]
    rfl

theorem classify_two_external (acc : NmAcc) (s y : String) :
    classify_two false acc [s, y] =
      (if s = "U" then { acc with undefs := acc.undefs ++ [y] }
       else if s = "C" then { acc with commons := acc.commons ++ [y] }
       else if s = str_upper s then { acc with defs := acc.defs ++ [y] }
       else acc) := by
  simp only [classify_two]
  by_cases hU : s = "U"
  · rw [if_pos hU, if_pos hU]
  · rw [if_neg hU, if_neg hU]
    by_cases hC : s = "C"
    · rw [if_pos hC, if_pos hC]
    · rw [if_neg hC, if_neg hC]
      by_cases hup : s = str_upper s
      · rw [if_pos (Or.inl ⟨by trivial, hup⟩), if_pos hup]
      · rw [if_neg ?_, if_neg hup]
        rintro (⟨-, h⟩ | ⟨h, -⟩)
        · exact hup h
        · simp at h

/-! ### Step lemmas for the main loop of Building.link -/

theorem process_files_archive_cons (env : LinkEnv) (faa has_ar : Bool) (A : Path)
    (fs : List Path) (st : LinkState) (hA : starts_with_dash A = false)
    (har : env.is_ar A = true) :
    process_files env faa has_ar (A :: fs) (st, none) =
      process_files env faa has_ar fs ((consider_archive env faa A st).2, none) := by
  simp only [process_files, process_file]
  rw [if_neg (by simp [hA]), if_neg (by simp [har])]

theorem process_files_archive_cons_group (env : LinkEnv) (faa has_ar : Bool) (A : Path)
    (fs : List Path) (st : LinkState) (gl : List Path) (hA : starts_with_dash A = false)
    (har : env.is_ar A = true) :
    process_files env faa has_ar (A :: fs) (st, some gl) =
      process_files env faa has_ar fs ((consider_archive env faa A st).2, some (gl ++ [A])) := by
  simp only [process_files, process_file]
  rw [if_neg (by simp [hA]), if_neg (by simp [har])]

theorem process_files_start_group (env : LinkEnv) (faa has_ar : Bool) (fs : List Path)
    (st : LinkState) :
    process_files env faa has_ar ("--start-group" :: fs) (st, none) =
      process_files env faa has_ar fs (st, some []) := by
  simp only [process_files, process_file]
  rw [if_pos (Or.inl trivial)]
  rfl

theorem process_files_end_group (env : LinkEnv) (faa has_ar : Bool) (fs : List Path)
    (st : LinkState) (gl : List Path) :
    process_files env faa has_ar ("--end-group" :: fs) (st, some gl) =
      process_files env faa has_ar fs (scan_archive_group env faa gl st, none) := by
  simp only [process_files, process_file]
  rw [if_pos (Or.inl trivial)]
  rfl

theorem scan_group_loop_two_pass (env : LinkEnv) (faa : Bool) (group : List Path)
    (st st2 : LinkState) (fuel : Nat) (h2 : 2 ≤ fuel)
    (hp1 : group_pass env faa group st = (true, st2))
    (hp2 : group_pass env faa group st2 = (false, st2)) :
    scan_group_loop env faa group fuel st = st2 := by
  cases fuel with
  | zero => cases h2
  | succ n =>
    unfold scan_group_loop
    rw [hp1]
    simp only [if_true]
    cases n with
    | zero => omega
    | succ m =>
      unfold scan_group_loop
      rw [hp2]
      simp

theorem group_step_of_ca_false (env : LinkEnv) (faa : Bool) (acc : Bool × LinkState)
    (a : Path) (h : consider_archive env faa a acc.2 = (false, acc.2)) :
    group_step env faa acc a = acc := by
  unfold group_step
  rw [h]
  simp

theorem group_step_of_ca_true (env : LinkEnv) (faa : Bool) (acc : Bool × LinkState)
    (a : Path) (st2 : LinkState) (h : consider_archive env faa a acc.2 = (true, st2)) :
    group_step env faa acc a = (true, st2) := by
  unfold group_step
  rw [h]
  simp

/-! ## Claim theorems -/

/-- C7: termination of the archive-scanning fixed-point loops.  Each
archive pass grows added_contents monotonically, bounded by the member
list; a pass either makes no change at all or strictly shrinks the set of
not-yet-considered members; consequently consider_archive reaches a state
on which one further full pass over the archive adds nothing, and
scan_archive_group likewise reaches a state on which one further full pass
over the whole group adds nothing. -/
theorem claim_C7_scan_termination (env : LinkEnv) (faa : Bool) (contents : List Path)
    (a : Path) (group : List Path) (st : LinkState) :
    (st.added_contents ⊆ (archive_pass env faa contents st).2.added_contents ∧
      (archive_pass env faa contents st).2.added_contents ⊆
        st.added_contents ∪ contents.toFinset) ∧
    (archive_pass env faa contents st = (false, st) ∨
      (contents.toFinset \ (archive_pass env faa contents st).2.added_contents).card <
        (contents.toFinset \ st.added_contents).card) ∧
    (st.added_contents ⊆ (consider_archive env faa a st).2.added_contents ∧
      (consider_archive env faa a st).2.added_contents ⊆
        st.added_contents ∪ (env.ar_contents a).toFinset ∧
      archive_pass env faa (env.ar_contents a) (consider_archive env faa a st).2 =
        (false, (consider_archive env faa a st).2)) ∧
    (st.added_contents ⊆ (scan_archive_group env faa group st).added_contents ∧
      group_pass env faa group (scan_archive_group env faa group st) =
        (false, scan_archive_group env faa group st)) := by
  refine ⟨⟨archive_pass_added_mono env faa contents st,
      archive_pass_added_bound env faa contents st⟩, ?_,
    ⟨consider_archive_added_mono env faa a st, consider_archive_added_bound env faa a st,
      consider_archive_fix env faa a st⟩,
    ⟨scan_archive_group_added_mono env faa group st, scan_archive_group_fix env faa group st⟩⟩
  by_cases hp : (archive_pass env faa contents st).1 = true
  · exact Or.inr (archive_pass_card_lt env faa contents st hp)
  · exact Or.inl (archive_pass_of_flag_false env faa contents st (by simpa using hp))

/-- C10: within one resolve run, a consider_object step preserves
disjointness of unresolved_symbols and resolved_symbols and only grows
resolved_symbols.  (The run starts from unresolved = the root set and
resolved = ∅, which are disjoint, so the invariant holds throughout.) -/
theorem claim_C10_state_invariant (env : LinkEnv) (st : LinkState) (f : Path)
    (force b : Bool) (st2 : LinkState)
    (hdisj : Disjoint st.unresolved_symbols st.resolved_symbols)
    (hstep : consider_object env st f force = (b, st2)) :
    Disjoint st2.unresolved_symbols st2.resolved_symbols ∧
      st.resolved_symbols ⊆ st2.resolved_symbols := by
  by_cases hv : (env.nm f).is_valid_for_nm = true
  · by_cases hb : env.is_bitcode f = true
    · by_cases hc : force = true ∨
        (st.unresolved_symbols ∩ ((env.nm f).defs ∪ (env.nm f).commons)).Nonempty
      · rw [consider_object_add env st f force hv hb hc] at hstep
        injection hstep with hb2 hst2
        subst hst2
        constructor
        · rw [Finset.disjoint_left]
          intro x hxu hxr
          have hd : x ∈ st.unresolved_symbols → x ∉ st.resolved_symbols := fun hx =>
            Finset.disjoint_left.mp hdisj hx
          simp only [Finset.mem_sdiff, Finset.mem_union] at hxu hxr
          tauto
        · exact Finset.subset_union_left
      · rw [consider_object_skip env st f force hv hb hc] at hstep
        injection hstep with hb2 hst2
        subst hst2
        exact ⟨hdisj, fun x hx => hx⟩
    · rw [consider_object_not_bitcode env st f force hv (by simpa using hb)] at hstep
      injection hstep with hb2 hst2
      subst hst2
      exact ⟨hdisj, fun x hx => hx⟩
  · rw [consider_object_invalid env st f force (by simpa using hv)] at hstep
    injection hstep with hb2 hst2
    subst hst2
    exact ⟨hdisj, fun x hx => hx⟩

/-- Witness for C10 at a concrete step: the sole member of
env_single_archive is added from a root set that needs it, and the
invariant holds after the step. -/
theorem claim_C10_witness :
    Disjoint (consider_object env_single_archive ⟨[], {"m"}, ∅, ∅⟩ "m.o" false).2.unresolved_symbols
        (consider_object env_single_archive ⟨[], {"m"}, ∅, ∅⟩ "m.o" false).2.resolved_symbols ∧
      (∅ : Finset Sym) ⊆
        (consider_object env_single_archive ⟨[], {"m"}, ∅, ∅⟩ "m.o" false).2.resolved_symbols :=
  claim_C10_state_invariant env_single_archive ⟨[], {"m"}, ∅, ∅⟩ "m.o" false
    (consider_object env_single_archive ⟨[], {"m"}, ∅, ∅⟩ "m.o" false).1
    (consider_object env_single_archive ⟨[], {"m"}, ∅, ∅⟩ "m.o" false).2
    (by decide) rfl

/-- C6 counterexample: llvm-ar lists archive members by basename (the
source says so in the comment above warn_if_duplicate_entries), so an
archive holding a/x.o and b/x.o is listed as x.o twice.  The aggregated
warning then fires exactly once and one per-name line names x.o, but both
members extract to the SAME destination x.o: extraction does not place
them in non-colliding destinations, contradicting the claim (the source
warning itself says only the last will be taken into account). -/
theorem claim_C6_counterexample :
    warn_if_duplicate_entries ["x.o", "x.o"] = (1, ["x.o"]) ∧
      extract_archive_dests ["x.o", "x.o"] = ["x.o", "x.o"] ∧
      ¬ (extract_archive_dests ["x.o", "x.o"]).Nodup := by
  refine ⟨by decide, by decide, by decide⟩

/-- C6 (amended): the aggregated duplicate-entry warning is emitted
exactly once when the member listing has any duplicate entry and not at
all otherwise; the per-name lines name exactly the entries occurring at
least twice, each once; and every member is extracted to its listed name,
so members listed under identical names collide (only the last survives)
while distinctly listed members get distinct destinations. -/
theorem claim_C6_duplicate_entries (contents : List String) (x : String) :
    ((warn_if_duplicate_entries contents).1 = if contents.Nodup then 0 else 1) ∧
      (warn_if_duplicate_entries contents).2.Nodup ∧
      (x ∈ (warn_if_duplicate_entries contents).2 ↔
        ¬ contents.Nodup ∧ 2 ≤ contents.count x) ∧
      extract_archive_dests contents = contents := by
  unfold warn_if_duplicate_entries
  by_cases hnd : contents.Nodup
  · have hcard : contents.length = contents.toFinset.card :=
      ((toFinset_card_eq_length_iff_nodup contents).mpr hnd).symm
    rw [if_neg (by simp [hcard])]
    exact ⟨by simp [hnd], by simp, by simp [hnd], extract_archive_dests_eq contents⟩
  · have hcard : contents.length ≠ contents.toFinset.card := by
      intro h
      exact hnd ((toFinset_card_eq_length_iff_nodup contents).mp h.symm)
    rw [if_pos hcard]
    refine ⟨by simp [hnd], duplicate_entry_lines_nodup contents ∅, ?_,
      extract_archive_dests_eq contents⟩
    rw [mem_duplicate_entry_lines]
    simp [hnd]

/-- C8: default-mode symbol-table parsing.  On a non-empty, colon-free
line, a three-column line whose first column is the all-zero or dash
placeholder is handled exactly like the remaining two columns, a
three-column line with any other (absolute address) first column is
ignored, and a two-column line files the symbol as undefined for status
U, common for status C, and defined exactly when the status equals its
own upper-casing. -/
theorem claim_C8_parse_rules (acc : NmAcc) (line o s y : String)
    (hlen : ¬ line.length = 0) (hcolon : line.data.contains ':' = false) :
    (nm_line_parts line = [o, s, y] →
      parse_symbols_line false acc line =
        (if o = "00000000" ∨ o = "--------" then
          (if s = "U" then { acc with undefs := acc.undefs ++ [y] }
           else if s = "C" then { acc with commons := acc.commons ++ [y] }
           else if s = str_upper s then { acc with defs := acc.defs ++ [y] }
           else acc)
         else acc)) ∧
    (nm_line_parts line = [s, y] →
      parse_symbols_line false acc line =
        (if s = "U" then { acc with undefs := acc.undefs ++ [y] }
         else if s = "C" then { acc with commons := acc.commons ++ [y] }
         else if s = str_upper s then { acc with defs := acc.defs ++ [y] }
         else acc)) := by
  have hcolon2 : ¬ line.data.contains ':' = true := by rw [hcolon]; simp
  constructor
  · intro hp
    unfold parse_symbols_line
    rw [if_neg hlen, if_neg hcolon2, hp]
    by_cases ho : o = "00000000" ∨ o = "--------"
    · rw [if_pos ⟨rfl, by simpa using ho⟩, if_pos ho]
      simp only [List.tail_cons]
      exact classify_two_external acc s y
    · rw [if_neg ?_, if_neg ho]
      · rfl
      · rintro ⟨-, h⟩
        exact ho (by simpa using h)
  · intro hp
    unfold parse_symbols_line
    rw [if_neg hlen, if_neg hcolon2, hp, if_neg (by simp)]
    exact classify_two_external acc s y

/-- Witness for C8 on the line "-------- T foo": the placeholder column
is stripped and foo lands among the defined symbols. -/
theorem claim_C8_witness :
    parse_symbols_line false ⟨[], [], []⟩ "-------- T foo" = ⟨["foo"], [], []⟩ := by
  have h := (claim_C8_parse_rules ⟨[], [], []⟩ "-------- T foo" "--------" "T" "foo"
    (by decide) (by decide)).1 (by decide)
  rw [h]
  decide

/-- C9: meta-DCE root marking.  An export item with an initially unset
root flag is marked as a root exactly when its export name, adjusted for
the active backend naming convention (the wasm backend prefixes an
underscore; the other convention uses the name as is), occurs among the
user-requested exports, or EXPORT_ALL is set; and under the wasm backend
an import name sheds one leading underscore before use, while the other
convention leaves it untouched. -/
theorem claim_C9_metadce_roots (wb ea : Bool) (ue : List String) (item : DCEGraphItem)
    (e m n : String) (hexp : item.exportName = some e) (hroot : item.root = false)
    (himp : item.importPair = some (m, n)) :
    ((metadce_mark_export_root wb ea ue item).root = true ↔
        ((if wb = true then "_" ++ e else e) ∈ ue ∨ ea = true)) ∧
      (metadce_fix_import wb item).importPair =
        some (m,
          if wb = true ∧ n.data.head? = some '_' then String.mk (n.data.drop 1) else n) ∧
      metadce_build_graph wb ea ue [item] =
        [metadce_fix_import wb (metadce_mark_export_root wb ea ue item)] := by
  obtain ⟨oe, ip, r⟩ := item
  dsimp only at hexp hroot himp
  subst hexp
  subst hroot
  subst himp
  refine ⟨?_, ?_, rfl⟩
  · simp only [metadce_mark_export_root]
    by_cases hc : (if wb = true then "_" ++ e else e) ∈ ue ∨ ea = true
    · rw [if_pos hc]
      simpa using hc
    · rw [if_neg hc]
      simpa using hc
  · simp only [metadce_fix_import]
    cases wb with
    | false => simp
    | true =>
      rw [if_pos rfl]
      by_cases hh : n.data.head? = some '_'
      · rw [if_pos hh]
        simp [hh]
      · rw [if_neg hh]
        simp [hh]

/-- Witness for C9: under the wasm backend, glue export main matches the
requested export _main and is marked as a root, and import name _foo is
stripped to foo. -/
theorem claim_C9_witness :
    (metadce_mark_export_root true false ["_main"]
        ⟨some "main", some ("env", "_foo"), false⟩).root = true ∧
      (metadce_fix_import true ⟨some "main", some ("env", "_foo"), false⟩).importPair =
        some ("env", "foo") := by
  have h := claim_C9_metadce_roots true false ["_main"]
    ⟨some "main", some ("env", "_foo"), false⟩ "main" "env" "_foo" rfl rfl rfl
  refine ⟨h.1.mpr (Or.inl (by decide)), ?_⟩
  rw [h.2.1]
  decide

/-- C3 counterexample: with no archives anywhere, an input list naming
the same object twice is deduplicated by unique_ordered, so the output is
not the direct-object input list unchanged. -/
theorem claim_C3_counterexample :
    link env_objects_only ["x.o", "x.o"] ∅ false = some ["x.o"] ∧
      ¬ (["x.o"] : List Path) = ["x.o", "x.o"] :=
  ⟨by decide, by decide⟩

/-- C3 (amended): for every link input sequence without flags that
contains no archives, the output is the direct-object (bitcode) input
list in original order after first-occurrence de-duplication, computed
without consulting any symbol table. -/
theorem claim_C3_no_archive_fast_path (env : LinkEnv) (files : List Path)
    (roots : Finset Sym) (fc : Bool)
    (h1 : ∀ f ∈ files, starts_with_dash f = false)
    (h2 : ∀ f ∈ files, env.is_ar f = false) :
    link env files roots fc =
      some (unique_ordered (files.filter (fun f => env.is_bitcode f))) := by
  have hany : files.any (fun f => !starts_with_dash f && env.is_ar f) = false := by
    simp only [List.any_eq_false]
    intro f hf
    simp [h2 f hf]
  simp only [link, hany]
  rw [process_files_no_ar env ((files.length == 1) || fc) files h1 h2 ⟨[], roots, ∅, ∅⟩ none]
  simp

/-- Witness for C3 on a three-element no-archive input where t.txt is not
bitcode: the two objects come through in order. -/
theorem claim_C3_witness :
    link env_objects_only ["x.o", "t.txt", "y.o"] ∅ false = some ["x.o", "y.o"] := by
  have h := claim_C3_no_archive_fast_path env_objects_only ["x.o", "t.txt", "y.o"] ∅ false
    (by decide) (by decide)
  rw [h]
  decide

/-- C5 counterexample: a direct command-line bitcode input on which
llvm-nm fails is skipped with a warning and the link still succeeds
(returning a file list), where the claim says such a failure is fatal for
the whole link. -/
theorem claim_C5_counterexample :
    link env_bad_object ["bad.o", "A.a"] ∅ false = some [] ∧
      ("bad.o" : Path) ∉ ([] : List Path) :=
  ⟨by decide, by decide⟩

/-- C5 (amended): a symbol-extraction failure on a single object is
recoverable everywhere, including for direct command-line inputs: the
object is never added and the state is unchanged (consider_object returns
false), and the main loop continues normally past such a direct input
rather than aborting the link. -/
theorem claim_C5_object_failure_recoverable (env : LinkEnv) (st : LinkState) (f : Path)
    (faa : Bool) (g : Option (List Path))
    (hflag : starts_with_dash f = false) (har : env.is_ar f = false)
    (hinv : (env.nm f).is_valid_for_nm = false) :
    (∀ b : Bool, consider_object env st f b = (false, st)) ∧
      process_file env faa true (st, g) f = some (st, g) := by
  refine ⟨fun b => consider_object_invalid env st f b hinv, ?_⟩
  unfold process_file
  rw [if_neg (by simp [hflag]), if_pos har]
  by_cases hbc : env.is_bitcode f = true
  · rw [if_pos hbc, if_pos rfl]
    rw [congrArg Prod.snd (consider_object_invalid env st f true hinv)]
  · rw [if_neg hbc]

/-- Witness for C5 at bad.o with an archive present: the step is a no-op
and processing continues. -/
theorem claim_C5_witness :
    consider_object env_bad_object ⟨[], ∅, ∅, ∅⟩ "bad.o" true = (false, ⟨[], ∅, ∅, ∅⟩) ∧
      process_file env_bad_object false true (⟨[], ∅, ∅, ∅⟩, none) "bad.o" =
        some (⟨[], ∅, ∅, ∅⟩, none) :=
  ⟨(claim_C5_object_failure_recoverable env_bad_object ⟨[], ∅, ∅, ∅⟩ "bad.o" false none
      (by decide) (by decide) (by decide)).1 true,
    (claim_C5_object_failure_recoverable env_bad_object ⟨[], ∅, ∅, ∅⟩ "bad.o" false none
      (by decide) (by decide) (by decide)).2⟩

/-- C2: a link whose input list is exactly one archive forces
whole-archive inclusion: every member that is valid for llvm-nm and is
bitcode appears in the output, regardless of the root set. -/
theorem claim_C2_whole_archive (env : LinkEnv) (roots : Finset Sym) (A m : Path) (fc : Bool)
    (hA : starts_with_dash A = false) (har : env.is_ar A = true)
    (hm : m ∈ env.ar_contents A) (hv : (env.nm m).is_valid_for_nm = true)
    (hb : env.is_bitcode m = true) :
    ∃ out, link env [A] roots fc = some out ∧ m ∈ out := by
  have hany : ([A] : List Path).any (fun f => !starts_with_dash f && env.is_ar f) = true := by
    simp [hA, har]
  have hfaa : ((([A] : List Path).length == 1) || fc) = true := by simp
  have hlink : link env [A] roots fc =
      some (unique_ordered (consider_archive env true A ⟨[], roots, ∅, ∅⟩).2.actual_files) := by
    simp only [link, hany, hfaa]
    unfold process_files process_file
    rw [if_neg (by simp [hA]), if_neg (by simp [har])]
    rfl
  rw [hlink]
  refine ⟨_, rfl, ?_⟩
  rw [mem_unique_ordered]
  have hlisted : AddedListed (consider_archive env true A ⟨[], roots, ∅, ∅⟩).2 :=
    consider_archive_added_listed env true A ⟨[], roots, ∅, ∅⟩ (by intro x hx; simp at hx)
  exact hlisted m (consider_archive_force_all env A m ⟨[], roots, ∅, ∅⟩ hm hv hb)

/-- Witness for C2: the singleton archive A.a with member m.o defining
only m is linked against an empty root set, and m.o is still included. -/
theorem claim_C2_witness :
    ∃ out, link env_single_archive ["A.a"] ∅ false = some out ∧ "m.o" ∈ out :=
  claim_C2_whole_archive env_single_archive ∅ "A.a" "m.o" false
    (by decide) (by decide) (by decide) (by decide) (by decide)

/-- C4 counterexample: archive B.a (listed first) holds b.o, which only
references f and defines nothing; archive A.a holds a.o, which defines
the root f.  The link includes only a.o: a member is pulled in only when
its defined/common symbols meet the unresolved set, so merely referencing
f does not include b.o, contradicting the claim that both members appear. -/
theorem claim_C4_counterexample :
    link env_ordered_ref_only ["B.a", "A.a"] {"f"} false = some ["a.o"] ∧
      ("b.o" : Path) ∉ (["a.o"] : List Path) :=
  ⟨by decide, by decide⟩

/-- C4 (amended): if B's sole member additionally defines a symbol g of
the initial root set (g distinct from f), then the ordered single-pass
scan includes B's member and then A's member, in that order, exactly once
each: B's member is pulled by the root g, its reference to f joins the
unresolved set, and A's member is then pulled by f. -/
theorem claim_C4_ordered_scan (env : LinkEnv) (roots : Finset Sym) (pA pB pa pb : Path)
    (f g : Sym)
    (hBflag : starts_with_dash pB = false) (hAflag : starts_with_dash pA = false)
    (hBar : env.is_ar pB = true) (hAar : env.is_ar pA = true)
    (hBc : env.ar_contents pB = [pb]) (hAc : env.ar_contents pA = [pa])
    (hbnm : env.nm pb = ⟨0, {g}, {f}, ∅⟩) (hanm : env.nm pa = ⟨0, {f}, ∅, ∅⟩)
    (hbbc : env.is_bitcode pb = true) (habc : env.is_bitcode pa = true)
    (hfg : f ≠ g) (hpab : pa ≠ pb) (hg : g ∈ roots) :
    link env [pB, pA] roots false = some [pb, pa] := by
  have hv_b : (env.nm pb).is_valid_for_nm = true := by rw [hbnm]; rfl
  have hv_a : (env.nm pa).is_valid_for_nm = true := by rw [hanm]; rfl
  -- step 1: b.o is pulled in by the root g
  have hcb : ((⟨[], roots, ∅, ∅⟩ : LinkState).unresolved_symbols ∩
      ((env.nm pb).defs ∪ (env.nm pb).commons)).Nonempty := by
    rw [hbnm]
    exact ⟨g, by simp [hg]⟩
  have hco_b := consider_object_add env ⟨[], roots, ∅, ∅⟩ pb false hv_b hbbc (Or.inr hcb)
  rw [hbnm] at hco_b
  have hca_b : consider_archive env false pB ⟨[], roots, ∅, ∅⟩ =
      (true, ⟨[pb],
        (roots ∪ ({f} \ (∅ ∪ ({g} ∪ ∅)))) \ ({g} ∪ ∅),
        ∅ ∪ ({g} ∪ ∅), insert pb ∅⟩) := by
    rw [consider_archive_singleton_add env false pB pb ⟨[], roots, ∅, ∅⟩ hBc (by simp)
      (by rw [hco_b]), hco_b]
    rfl
  -- step 2: a.o is pulled in by the now-unresolved f
  have hf_mem : f ∈ (roots ∪ ({f} \ (∅ ∪ ({g} ∪ ∅)))) \ ({g} ∪ ∅) := by
    simp
    exact ⟨Or.inr hfg, hfg⟩
  have hca2 : ((⟨[pb], (roots ∪ ({f} \ (∅ ∪ ({g} ∪ ∅)))) \ ({g} ∪ ∅),
      ∅ ∪ ({g} ∪ ∅), insert pb ∅⟩ : LinkState).unresolved_symbols ∩
      ((env.nm pa).defs ∪ (env.nm pa).commons)).Nonempty := by
    rw [hanm]
    exact ⟨f, Finset.mem_inter.mpr ⟨hf_mem, by simp⟩⟩
  have hco_a := consider_object_add env ⟨[pb],
    (roots ∪ ({f} \ (∅ ∪ ({g} ∪ ∅)))) \ ({g} ∪ ∅),
    ∅ ∪ ({g} ∪ ∅), insert pb ∅⟩ pa false hv_a habc (Or.inr hca2)
  rw [hanm] at hco_a
  have hca_a : consider_archive env false pA ⟨[pb],
      (roots ∪ ({f} \ (∅ ∪ ({g} ∪ ∅)))) \ ({g} ∪ ∅),
      ∅ ∪ ({g} ∪ ∅), insert pb ∅⟩ =
      (true, ⟨[pb, pa],
        ((roots ∪ ({f} \ (∅ ∪ ({g} ∪ ∅)))) \ ({g} ∪ ∅) ∪
            (∅ \ ((∅ ∪ ({g} ∪ ∅)) ∪ ({f} ∪ ∅)))) \ ({f} ∪ ∅),
        (∅ ∪ ({g} ∪ ∅)) ∪ ({f} ∪ ∅), insert pa (insert pb ∅)⟩) := by
    rw [consider_archive_singleton_add env false pA pa _ hAc (by simp [hpab])
      (by rw [hco_a]), hco_a]
    rfl
  -- assemble the whole link
  have hany : (([pB, pA] : List Path).any fun x => !starts_with_dash x && env.is_ar x)
      = true := by
    simp [hBflag, hBar]
  have hfaa : ((([pB, pA] : List Path).length == 1) || false) = false := rfl
  simp only [link, hany, hfaa]
  rw [process_files_archive_cons env false true pB [pA] ⟨[], roots, ∅, ∅⟩ hBflag hBar,
    hca_b]
  dsimp only
  rw [process_files_archive_cons env false true pA [] _ hAflag hAar, hca_a]
  dsimp only
  simp only [process_files]
  rw [unique_ordered_of_nodup [pb, pa] (by simp; exact fun h => hpab h.symm)]

/-- Witness for C4 (amended) on the concrete two-archive world where b.o
defines the root g and references f, and a.o defines f. -/
theorem claim_C4_witness :
    link env_ordered_def_root ["B.a", "A.a"] {"f", "g"} false = some ["b.o", "a.o"] :=
  claim_C4_ordered_scan env_ordered_def_root {"f", "g"} "A.a" "B.a" "a.o" "b.o" "f" "g"
    (by decide) (by decide) (by decide) (by decide) (by decide) (by decide)
    (by decide) (by decide) (by decide) (by decide) (by decide) (by decide) (by decide)

/-- C1: group fixed-point.  For a --start-group A B --end-group input
where A's sole member defines fa and needs fb, B's sole member defines fb
and needs fa, and one of fa, fb is a root: both members are included.
When fa is a root the left-to-right pass already pulls in both; when only
fb is a root the first pass pulls in only B's member, and the end-of-group
rescan then pulls in A's member from the earlier archive. -/
theorem claim_C1_group_fixed_point (env : LinkEnv) (roots : Finset Sym) (pA pB pa pb : Path)
    (fa fb : Sym)
    (hAflag : starts_with_dash pA = false) (hBflag : starts_with_dash pB = false)
    (hAar : env.is_ar pA = true) (hBar : env.is_ar pB = true)
    (hAc : env.ar_contents pA = [pa]) (hBc : env.ar_contents pB = [pb])
    (hanm : env.nm pa = ⟨0, {fa}, {fb}, ∅⟩) (hbnm : env.nm pb = ⟨0, {fb}, {fa}, ∅⟩)
    (habc : env.is_bitcode pa = true) (hbbc : env.is_bitcode pb = true)
    (hab : fa ≠ fb) (hpab : pa ≠ pb)
    (hroot : fa ∈ roots ∨ fb ∈ roots) :
    ∃ out, link env ["--start-group", pA, pB, "--end-group"] roots false = some out ∧
      pa ∈ out ∧ pb ∈ out := by
  have hv_a : (env.nm pa).is_valid_for_nm = true := by rw [hanm]; rfl
  have hv_b : (env.nm pb).is_valid_for_nm = true := by rw [hbnm]; rfl
  have hba : fb ≠ fa := fun h => hab h.symm
  have hany : ((["--start-group", pA, pB, "--end-group"] : List Path).any
      fun x => !starts_with_dash x && env.is_ar x) = true := by
    have h1 : starts_with_dash "--start-group" = true := by decide
    simp [h1, hAflag, hAar]
  have hfaa : (((["--start-group", pA, pB, "--end-group"] : List Path).length == 1)
      || false) = false := rfl
  by_cases hfa : fa ∈ roots
  · -- the ordinary left-to-right pass already includes both members
    have hco_a := consider_object_add env ⟨[], roots, ∅, ∅⟩ pa false hv_a habc
      (Or.inr (by rw [hanm]; exact ⟨fa, by simp [hfa]⟩))
    rw [hanm] at hco_a
    have hca_A : consider_archive env false pA ⟨[], roots, ∅, ∅⟩ =
        (true, ⟨[pa],
          (roots ∪ ({fb} \ (∅ ∪ ({fa} ∪ ∅)))) \ ({fa} ∪ ∅),
          ∅ ∪ ({fa} ∪ ∅), insert pa ∅⟩) := by
      rw [consider_archive_singleton_add env false pA pa ⟨[], roots, ∅, ∅⟩ hAc (by simp)
        (by rw [hco_a]), hco_a]
      rfl
    have hfb_mem : fb ∈ (roots ∪ ({fb} \ (∅ ∪ ({fa} ∪ ∅)))) \ ({fa} ∪ ∅) := by
      simp
      exact ⟨Or.inr hba, hba⟩
    have hco_b := consider_object_add env ⟨[pa],
      (roots ∪ ({fb} \ (∅ ∪ ({fa} ∪ ∅)))) \ ({fa} ∪ ∅),
      ∅ ∪ ({fa} ∪ ∅), insert pa ∅⟩ pb false hv_b hbbc
      (Or.inr (by rw [hbnm]; exact ⟨fb, Finset.mem_inter.mpr ⟨hfb_mem, by simp⟩⟩))
    rw [hbnm] at hco_b
    have hca_B : consider_archive env false pB ⟨[pa],
        (roots ∪ ({fb} \ (∅ ∪ ({fa} ∪ ∅)))) \ ({fa} ∪ ∅),
        ∅ ∪ ({fa} ∪ ∅), insert pa ∅⟩ =
        (true, ⟨[pa, pb],
          ((roots ∪ ({fb} \ (∅ ∪ ({fa} ∪ ∅)))) \ ({fa} ∪ ∅) ∪
              ({fa} \ ((∅ ∪ ({fa} ∪ ∅)) ∪ ({fb} ∪ ∅)))) \ ({fb} ∪ ∅),
          (∅ ∪ ({fa} ∪ ∅)) ∪ ({fb} ∪ ∅), insert pb (insert pa ∅)⟩) := by
      rw [consider_archive_singleton_add env false pB pb _ hBc
        (by simp; exact fun h => hpab h.symm) (by rw [hco_b]), hco_b]
      rfl
    -- the end-of-group rescan adds nothing: both members are considered
    have hmemA : consider_archive env false pA ⟨[pa, pb],
        ((roots ∪ ({fb} \ (∅ ∪ ({fa} ∪ ∅)))) \ ({fa} ∪ ∅) ∪
            ({fa} \ ((∅ ∪ ({fa} ∪ ∅)) ∪ ({fb} ∪ ∅)))) \ ({fb} ∪ ∅),
        (∅ ∪ ({fa} ∪ ∅)) ∪ ({fb} ∪ ∅), insert pb (insert pa ∅)⟩ =
        (false, ⟨[pa, pb],
          ((roots ∪ ({fb} \ (∅ ∪ ({fa} ∪ ∅)))) \ ({fa} ∪ ∅) ∪
              ({fa} \ ((∅ ∪ ({fa} ∪ ∅)) ∪ ({fb} ∪ ∅)))) \ ({fb} ∪ ∅),
          (∅ ∪ ({fa} ∪ ∅)) ∪ ({fb} ∪ ∅), insert pb (insert pa ∅)⟩) :=
      consider_archive_singleton_mem env false pA pa _ hAc (by simp)
    have hmemB : consider_archive env false pB ⟨[pa, pb],
        ((roots ∪ ({fb} \ (∅ ∪ ({fa} ∪ ∅)))) \ ({fa} ∪ ∅) ∪
            ({fa} \ ((∅ ∪ ({fa} ∪ ∅)) ∪ ({fb} ∪ ∅)))) \ ({fb} ∪ ∅),
        (∅ ∪ ({fa} ∪ ∅)) ∪ ({fb} ∪ ∅), insert pb (insert pa ∅)⟩ =
        (false, ⟨[pa, pb],
          ((roots ∪ ({fb} \ (∅ ∪ ({fa} ∪ ∅)))) \ ({fa} ∪ ∅) ∪
              ({fa} \ ((∅ ∪ ({fa} ∪ ∅)) ∪ ({fb} ∪ ∅)))) \ ({fb} ∪ ∅),
          (∅ ∪ ({fa} ∪ ∅)) ∪ ({fb} ∪ ∅), insert pb (insert pa ∅)⟩) :=
      consider_archive_singleton_mem env false pB pb _ hBc (by simp)
    have hgp : group_pass env false [pA, pB] ⟨[pa, pb],
        ((roots ∪ ({fb} \ (∅ ∪ ({fa} ∪ ∅)))) \ ({fa} ∪ ∅) ∪
            ({fa} \ ((∅ ∪ ({fa} ∪ ∅)) ∪ ({fb} ∪ ∅)))) \ ({fb} ∪ ∅),
        (∅ ∪ ({fa} ∪ ∅)) ∪ ({fb} ∪ ∅), insert pb (insert pa ∅)⟩ =
        (false, ⟨[pa, pb],
          ((roots ∪ ({fb} \ (∅ ∪ ({fa} ∪ ∅)))) \ ({fa} ∪ ∅) ∪
              ({fa} \ ((∅ ∪ ({fa} ∪ ∅)) ∪ ({fb} ∪ ∅)))) \ ({fb} ∪ ∅),
          (∅ ∪ ({fa} ∪ ∅)) ∪ ({fb} ∪ ∅), insert pb (insert pa ∅)⟩) := by
      unfold group_pass
      simp only [List.foldl_cons, List.foldl_nil]
      rw [group_step_of_ca_false env false _ pA hmemA, group_step_of_ca_false env false _ pB hmemB]
    refine ⟨[pa, pb], ?_, by simp, by simp⟩
    simp only [link, hany, hfaa]
    rw [process_files_start_group]
    rw [process_files_archive_cons_group env false true pA [pB, "--end-group"]
      ⟨[], roots, ∅, ∅⟩ [] hAflag hAar, hca_A]
    dsimp only
    rw [process_files_archive_cons_group env false true pB ["--end-group"] _ _ hBflag hBar,
      hca_B]
    dsimp only
    rw [process_files_end_group]
    simp only [List.nil_append, List.singleton_append]
    rw [scan_archive_group_of_pass_false env false [pA, pB] _ hgp]
    simp only [process_files]
    rw [unique_ordered_of_nodup [pa, pb] (by simp; exact hpab)]
  · -- only fb is a root: the first pass skips A's member, pulls in B's,
    -- and the group rescan then pulls in A's member
    have hfb : fb ∈ roots := hroot.resolve_left hfa
    have hskip_a : consider_object env ⟨[], roots, ∅, ∅⟩ pa false =
        (false, ⟨[], roots, ∅, ∅⟩) := by
      apply consider_object_skip env ⟨[], roots, ∅, ∅⟩ pa false hv_a habc
      rw [hanm]
      rintro (h | ⟨x, hx⟩)
      · simp at h
      · simp at hx
        exact hfa (hx.2 ▸ hx.1)
    have hca_A0 : consider_archive env false pA ⟨[], roots, ∅, ∅⟩ =
        (false, ⟨[], roots, ∅, ∅⟩) :=
      consider_archive_singleton_skip env false pA pa ⟨[], roots, ∅, ∅⟩ hAc (by simp)
        (by rw [hskip_a])
    have hco_b := consider_object_add env ⟨[], roots, ∅, ∅⟩ pb false hv_b hbbc
      (Or.inr (by rw [hbnm]; exact ⟨fb, by simp [hfb]⟩))
    rw [hbnm] at hco_b
    have hca_B : consider_archive env false pB ⟨[], roots, ∅, ∅⟩ =
        (true, ⟨[pb],
          (roots ∪ ({fa} \ (∅ ∪ ({fb} ∪ ∅)))) \ ({fb} ∪ ∅),
          ∅ ∪ ({fb} ∪ ∅), insert pb ∅⟩) := by
      rw [consider_archive_singleton_add env false pB pb ⟨[], roots, ∅, ∅⟩ hBc (by simp)
        (by rw [hco_b]), hco_b]
      rfl
    -- the rescan pass: A's member is now needed through fa
    have hfa_mem : fa ∈ (roots ∪ ({fa} \ (∅ ∪ ({fb} ∪ ∅)))) \ ({fb} ∪ ∅) := by
      simp
      exact ⟨Or.inr hab, hab⟩
    have hco_a2 := consider_object_add env ⟨[pb],
      (roots ∪ ({fa} \ (∅ ∪ ({fb} ∪ ∅)))) \ ({fb} ∪ ∅),
      ∅ ∪ ({fb} ∪ ∅), insert pb ∅⟩ pa false hv_a habc
      (Or.inr (by rw [hanm]; exact ⟨fa, Finset.mem_inter.mpr ⟨hfa_mem, by simp⟩⟩))
    rw [hanm] at hco_a2
    have hca_A1 : consider_archive env false pA ⟨[pb],
        (roots ∪ ({fa} \ (∅ ∪ ({fb} ∪ ∅)))) \ ({fb} ∪ ∅),
        ∅ ∪ ({fb} ∪ ∅), insert pb ∅⟩ =
        (true, ⟨[pb, pa],
          ((roots ∪ ({fa} \ (∅ ∪ ({fb} ∪ ∅)))) \ ({fb} ∪ ∅) ∪
              ({fb} \ ((∅ ∪ ({fb} ∪ ∅)) ∪ ({fa} ∪ ∅)))) \ ({fa} ∪ ∅),
          (∅ ∪ ({fb} ∪ ∅)) ∪ ({fa} ∪ ∅), insert pa (insert pb ∅)⟩) := by
      rw [consider_archive_singleton_add env false pA pa _ hAc (by simp [hpab])
        (by rw [hco_a2]), hco_a2]
      rfl
    have hmemA2 : consider_archive env false pA ⟨[pb, pa],
        ((roots ∪ ({fa} \ (∅ ∪ ({fb} ∪ ∅)))) \ ({fb} ∪ ∅) ∪
            ({fb} \ ((∅ ∪ ({fb} ∪ ∅)) ∪ ({fa} ∪ ∅)))) \ ({fa} ∪ ∅),
        (∅ ∪ ({fb} ∪ ∅)) ∪ ({fa} ∪ ∅), insert pa (insert pb ∅)⟩ =
        (false, ⟨[pb, pa],
          ((roots ∪ ({fa} \ (∅ ∪ ({fb} ∪ ∅)))) \ ({fb} ∪ ∅) ∪
              ({fb} \ ((∅ ∪ ({fb} ∪ ∅)) ∪ ({fa} ∪ ∅)))) \ ({fa} ∪ ∅),
          (∅ ∪ ({fb} ∪ ∅)) ∪ ({fa} ∪ ∅), insert pa (insert pb ∅)⟩) :=
      consider_archive_singleton_mem env false pA pa _ hAc (by simp)
    have hmemB2 : consider_archive env false pB ⟨[pb, pa],
        ((roots ∪ ({fa} \ (∅ ∪ ({fb} ∪ ∅)))) \ ({fb} ∪ ∅) ∪
            ({fb} \ ((∅ ∪ ({fb} ∪ ∅)) ∪ ({fa} ∪ ∅)))) \ ({fa} ∪ ∅),
        (∅ ∪ ({fb} ∪ ∅)) ∪ ({fa} ∪ ∅), insert pa (insert pb ∅)⟩ =
        (false, ⟨[pb, pa],
          ((roots ∪ ({fa} \ (∅ ∪ ({fb} ∪ ∅)))) \ ({fb} ∪ ∅) ∪
              ({fb} \ ((∅ ∪ ({fb} ∪ ∅)) ∪ ({fa} ∪ ∅)))) \ ({fa} ∪ ∅),
          (∅ ∪ ({fb} ∪ ∅)) ∪ ({fa} ∪ ∅), insert pa (insert pb ∅)⟩) :=
      consider_archive_singleton_mem env false pB pb _ hBc (by simp)
    have hp1 : group_pass env false [pA, pB] ⟨[pb],
        (roots ∪ ({fa} \ (∅ ∪ ({fb} ∪ ∅)))) \ ({fb} ∪ ∅),
        ∅ ∪ ({fb} ∪ ∅), insert pb ∅⟩ =
        (true, ⟨[pb, pa],
          ((roots ∪ ({fa} \ (∅ ∪ ({fb} ∪ ∅)))) \ ({fb} ∪ ∅) ∪
              ({fb} \ ((∅ ∪ ({fb} ∪ ∅)) ∪ ({fa} ∪ ∅)))) \ ({fa} ∪ ∅),
          (∅ ∪ ({fb} ∪ ∅)) ∪ ({fa} ∪ ∅), insert pa (insert pb ∅)⟩) := by
      unfold group_pass
      simp only [List.foldl_cons, List.foldl_nil]
      rw [group_step_of_ca_true env false _ pA _ hca_A1,
        group_step_of_ca_false env false _ pB hmemB2]
    have hp2 : group_pass env false [pA, pB] ⟨[pb, pa],
        ((roots ∪ ({fa} \ (∅ ∪ ({fb} ∪ ∅)))) \ ({fb} ∪ ∅) ∪
            ({fb} \ ((∅ ∪ ({fb} ∪ ∅)) ∪ ({fa} ∪ ∅)))) \ ({fa} ∪ ∅),
        (∅ ∪ ({fb} ∪ ∅)) ∪ ({fa} ∪ ∅), insert pa (insert pb ∅)⟩ =
        (false, ⟨[pb, pa],
          ((roots ∪ ({fa} \ (∅ ∪ ({fb} ∪ ∅)))) \ ({fb} ∪ ∅) ∪
              ({fb} \ ((∅ ∪ ({fb} ∪ ∅)) ∪ ({fa} ∪ ∅)))) \ ({fa} ∪ ∅),
          (∅ ∪ ({fb} ∪ ∅)) ∪ ({fa} ∪ ∅), insert pa (insert pb ∅)⟩) := by
      unfold group_pass
      simp only [List.foldl_cons, List.foldl_nil]
      rw [group_step_of_ca_false env false _ pA hmemA2,
        group_step_of_ca_false env false _ pB hmemB2]
    have hscan : scan_archive_group env false [pA, pB] ⟨[pb],
        (roots ∪ ({fa} \ (∅ ∪ ({fb} ∪ ∅)))) \ ({fb} ∪ ∅),
        ∅ ∪ ({fb} ∪ ∅), insert pb ∅⟩ =
        ⟨[pb, pa],
          ((roots ∪ ({fa} \ (∅ ∪ ({fb} ∪ ∅)))) \ ({fb} ∪ ∅) ∪
              ({fb} \ ((∅ ∪ ({fb} ∪ ∅)) ∪ ({fa} ∪ ∅)))) \ ({fa} ∪ ∅),
          (∅ ∪ ({fb} ∪ ∅)) ∪ ({fa} ∪ ∅), insert pa (insert pb ∅)⟩ := by
      unfold scan_archive_group
      exact scan_group_loop_two_pass env false [pA, pB] _ _ _ (by simp [hAc, hBc]) hp1 hp2
    refine ⟨[pb, pa], ?_, by simp, by simp⟩
    simp only [link, hany, hfaa]
    rw [process_files_start_group]
    rw [process_files_archive_cons_group env false true pA [pB, "--end-group"]
      ⟨[], roots, ∅, ∅⟩ [] hAflag hAar, hca_A0]
    dsimp only
    rw [process_files_archive_cons_group env false true pB ["--end-group"] _ _ hBflag hBar,
      hca_B]
    dsimp only
    rw [process_files_end_group]
    simp only [List.nil_append, List.singleton_append]
    rw [hscan]
    simp only [process_files]
    rw [unique_ordered_of_nodup [pb, pa] (by simp; exact fun h => hpab h.symm)]

/-- Witness for C1 in the concrete cross-referencing two-archive world
with root fa: both members end up in the output. -/
theorem claim_C1_witness :
    ∃ out, link env_group ["--start-group", "A.a", "B.a", "--end-group"] {"fa"} false =
      some out ∧ "a.o" ∈ out ∧ "b.o" ∈ out :=
  claim_C1_group_fixed_point env_group {"fa"} "A.a" "B.a" "a.o" "b.o" "fa" "fb"
    (by decide) (by decide) (by decide) (by decide) (by decide) (by decide)
    (by decide) (by decide) (by decide) (by decide) (by decide) (by decide)
    (Or.inl (by decide))

end Shared
